import Mathlib

/-!
Verification development for the iara asynchronous runtime
(juro promises, fuss shouter bus, fugax event loop).

Each C++ component is shallowly embedded as executable Lean definitions
translated from the sources:
  * `juro` from src/juro/include/juro/promise.hpp, src/juro/src/promise.cpp,
    src/juro/include/juro/factories.hpp, compose/all.hpp, compose/race.hpp;
  * `fuss` from the live-list header fuss/include/fuss.hpp;
  * `fugax` from fugax/src/event-loop.cpp, fugax/include/fugax/event-loop.hpp
    and fugax/src/event.cpp.
Machine integers (`std::uint32_t` counters, `std::size_t` coordinator
counters) are modelled as `Nat` with explicit reduction modulo 2^32 / 2^64
at the operations where the C++ arithmetic wraps.
-/

namespace juro

/-- The possible states of a promise (juro/helpers.hpp, `promise_state`). -/
inductive promise_state where
  | PENDING
  | RESOLVED
  | REJECTED
deriving DecidableEq, Repr

/-- Model of `std::exception_ptr`: a type-erased rethrowable carrier. A
rejection payload is either a wrapped user value of type `ρ` or a thrown
`juro::promise_error` carrying a message. -/
inductive exception_ptr (ρ : Type) where
  | user (v : ρ)
  | promise_err (msg : String)
deriving DecidableEq, Repr

/-- An argument passed to `promise::reject` / `make_rejected`: either a plain
value (to be wrapped), a `promise_error` value (also to be wrapped; this is
the default argument of `reject`), or something that already is an
`std::exception_ptr`. -/
inductive reject_arg (ρ : Type) where
  | raw (v : ρ)
  | raw_promise_error (msg : String)
  | ptr (e : exception_ptr ρ)
deriving DecidableEq, Repr

/-- `promise::rejection_value` (promise.hpp lines 465-473): wrap the supplied
value into an `std::exception_ptr` unless it already is one, in which case it
is returned unchanged. -/
def rejection_value {ρ : Type} : reject_arg ρ → exception_ptr ρ
  | .raw v => .user v
  | .raw_promise_error m => .promise_err m
  | .ptr e => e

/-- `promise::settle_type` (promise.hpp lines 138-139): a pending promise
holds `empty_type`, a resolved one holds a `value_type`, a rejected one holds
an `std::exception_ptr`. -/
inductive settle_type (α ρ : Type) where
  | empty
  | value (v : α)
  | error (e : exception_ptr ρ)
deriving DecidableEq

/-- A `juro::promise<T>`: state, stored value, and the type-erased settle
callback. The callback's body lives in the surrounding system model (it is a
type-erased closure in C++); the promise itself records only its presence,
exactly what `promise_interface::on_settle`'s truthiness test observes. -/
structure promise (α ρ : Type) where
  state : promise_state := .PENDING
  value : settle_type α ρ := .empty
  on_settle : Bool := false
deriving DecidableEq

/-- `promise_interface::is_settled`. -/
def promise.is_settled {α ρ : Type} (p : promise α ρ) : Bool :=
  p.state != .PENDING

/-- Result of a call to `resolve`/`reject`: either a normal return (recording
whether the settle callback was invoked) or a `promise_error` thrown out of
the call. The mutated promise is returned alongside, since C++ mutates the
object in place even when the call subsequently throws. -/
inductive settle_outcome where
  | ok (handler_invoked : Bool)
  | threw (msg : String)
deriving DecidableEq, Repr

/-- `promise::resolve` (promise.hpp lines 215-228) followed by
`promise_interface::resolved` (promise.cpp lines 16-21): throw if already
settled; otherwise store the value, transition to RESOLVED and invoke the
settle callback if one is attached. -/
def promise.resolve {α ρ : Type} (p : promise α ρ) (v : α) :
    promise α ρ × settle_outcome :=
  if p.is_settled then
    (p, .threw "Attempted to resolve an already settled promise")
  else
    ({ p with state := .RESOLVED, value := .value v }, .ok p.on_settle)

/-- `promise::reject` (promise.hpp lines 237-245) followed by
`promise_interface::rejected` (promise.cpp lines 23-30): throw if already
settled; otherwise store the wrapped error, transition to REJECTED, then
invoke the settle callback if attached, else throw "Unhandled promise
rejection" (the promise stays rejected in that case). -/
def promise.reject {α ρ : Type} (p : promise α ρ) (e : reject_arg ρ) :
    promise α ρ × settle_outcome :=
  if p.is_settled then
    (p, .threw "Attempted to reject an already settled promise")
  else
    let q : promise α ρ :=
      { p with state := .REJECTED, value := .error (rejection_value e) }
    if p.on_settle then (q, .ok true)
    else (q, .threw "Unhandled promise rejection")

/-- `juro::make_pending` (factories.hpp lines 41-44). -/
def make_pending (α ρ : Type) : promise α ρ := {}

/-- `juro::make_rejected` (factories.hpp lines 84-90): constructs the promise
directly in the REJECTED state via the `rejected_promise_tag` constructor
(promise.hpp lines 176-180); no settle machinery runs, so nothing is thrown. -/
def make_rejected (α ρ : Type) (e : reject_arg ρ) : promise α ρ :=
  { state := .REJECTED, value := .error (rejection_value e), on_settle := false }

/-- `promise_interface::set_settle_handler` (promise.cpp lines 9-14): store
the handler; if the promise is already settled, invoke it immediately. The
returned Bool records whether the handler was invoked synchronously during
the attachment. -/
def promise.set_settle_handler {α ρ : Type} (p : promise α ρ) :
    promise α ρ × Bool :=
  ({ p with on_settle := true }, p.is_settled)

/-- The three promises involved in `pipe(source → target)` (promise.hpp lines
481-494): the source `p`, the intermediate promise `t` created by the `then`
call that pipe performs, and the target `q` captured by the forwarding
lambdas. -/
structure pipe_state (α ρ : Type) where
  p : promise α ρ
  t : promise Unit ρ
  q : promise α ρ
deriving DecidableEq

/-- The settle callback that `pipe`'s `then` call installs on `p`
(promise.hpp lines 268-285 specialised to the forwarding lambdas of lines
483-493): if `p` is resolved, run `handle_resolve` — the forwarder
`q.resolve(value)` returns void, so the intermediate promise is then
resolved; if `p` is rejected, run `handle_reject` — the forwarder
`q.reject(error)` likewise. Any exception escaping the handlers is caught
and turned into `t.reject(current_exception)`; the `Option String` output
is an exception escaping the whole callback. -/
def pipe_callback {α ρ : Type} (st : pipe_state α ρ) :
    pipe_state α ρ × Option String :=
  match st.p.state, st.p.value with
  | .RESOLVED, .value v =>
    let r1 := st.q.resolve v
    match r1.2 with
    | .ok _ =>
      let r2 := st.t.resolve ()
      ({ st with q := r1.1, t := r2.1 }, none)
    | .threw m =>
      let r2 := st.t.reject (.ptr (.promise_err m))
      match r2.2 with
      | .ok _ => ({ st with q := r1.1, t := r2.1 }, none)
      | .threw m2 => ({ st with q := r1.1, t := r2.1 }, some m2)
  | .REJECTED, .error e =>
    let r1 := st.q.reject (.ptr e)
    match r1.2 with
    | .ok _ =>
      let r2 := st.t.resolve ()
      ({ st with q := r1.1, t := r2.1 }, none)
    | .threw m =>
      let r2 := st.t.reject (.ptr (.promise_err m))
      match r2.2 with
      | .ok _ => ({ st with q := r1.1, t := r2.1 }, none)
      | .threw m2 => ({ st with q := r1.1, t := r2.1 }, some m2)
  | _, _ => (st, none)

/-- `promise::pipe` (promise.hpp lines 481-494): `then` creates a fresh
pending intermediate promise and installs the forwarding settle callback on
`p` via `set_settle_handler`; if `p` is already settled the callback runs
synchronously during the attachment. -/
def pipe {α ρ : Type} (p q : promise α ρ) : pipe_state α ρ × Option String :=
  let st : pipe_state α ρ := { p := { p with on_settle := true }, t := {}, q := q }
  if p.is_settled then pipe_callback st else (st, none)

/-- `p.resolve(v)` performed after `pipe(p → q)` was set up: the in-place
mutation of `resolve` followed by `resolved()` invoking the installed
pipe callback. -/
def pipe_settle_resolve {α ρ : Type} (st : pipe_state α ρ) (v : α) :
    pipe_state α ρ × Option String :=
  if st.p.is_settled then
    (st, some "Attempted to resolve an already settled promise")
  else
    let st1 := { st with p := { st.p with state := .RESOLVED, value := .value v } }
    if st.p.on_settle then pipe_callback st1 else (st1, none)

/-- `p.reject(e)` performed after `pipe(p → q)` was set up: the in-place
mutation of `reject` followed by `rejected()` invoking the installed pipe
callback (or throwing when no callback is attached). -/
def pipe_settle_reject {α ρ : Type} (st : pipe_state α ρ) (e : reject_arg ρ) :
    pipe_state α ρ × Option String :=
  if st.p.is_settled then
    (st, some "Attempted to reject an already settled promise")
  else
    let st1 :=
      { st with p :=
        { st.p with state := .REJECTED, value := .error (rejection_value e) } }
    if st.p.on_settle then pipe_callback st1
    else (st1, some "Unhandled promise rejection")

/-- Model of `std::size_t` overflow bound used by the `all` coordinator's
counter. -/
def SIZE_T : Nat := 2 ^ 64

/-- State of a `juro::compose::all_coordinator<T_values...>` (all.hpp lines
18-70) over `n` inputs whose storage-mapped value types are `T i` (a void
input has `T i` the unit-like `void_type`): the per-input optional slots, the
countdown counter and the result promise `all(p₁,…,pₙ)` returned to the
caller. The `std::tuple` result is the dependent tuple `∀ i, T i`. -/
structure all_state (n : Nat) (T : Fin n → Type) (ρ : Type) where
  working_area : ∀ i, Option (T i)
  counter : Nat
  result : promise (∀ i, T i) ρ

/-- The initial coordinator state built by `juro::compose::all` (all.hpp
lines 84-90): empty slots, counter `sizeof...(T_values) = n`, pending result
promise. -/
def all_init (n : Nat) (T : Fin n → Type) (ρ : Type) : all_state n T ρ :=
  { working_area := fun _ => none, counter := n, result := {} }

/-- `all_coordinator::on_resolve` (all.hpp lines 54-63): store the value in
the input's slot, decrement the counter (`std::size_t` arithmetic), and if it
reached zero while the result promise is still pending, resolve the result
with the tuple of all slot values. `std::optional::value()` on an empty slot
would throw `bad_optional_access` before `resolve` is reached, leaving the
result promise untouched; that is the unreachable `else` branch. -/
def all_on_resolve {n : Nat} {T : Fin n → Type} {ρ : Type}
    (st : all_state n T ρ) (i : Fin n) (v : T i) : all_state n T ρ :=
  let wa := Function.update st.working_area i (some v)
  let c := (st.counter + (SIZE_T - 1)) % SIZE_T
  if c = 0 ∧ st.result.state = .PENDING then
    if h : ∀ j, (wa j).isSome then
      { working_area := wa, counter := c,
        result := (st.result.resolve (fun j => (wa j).get (h j))).1 }
    else
      { working_area := wa, counter := c, result := st.result }
  else
    { working_area := wa, counter := c, result := st.result }

/-- `all_coordinator::on_reject` (all.hpp lines 65-69): reject the result
promise with the input's error if it is still pending; otherwise do
nothing. -/
def all_on_reject {n : Nat} {T : Fin n → Type} {ρ : Type}
    (st : all_state n T ρ) (e : exception_ptr ρ) : all_state n T ρ :=
  if st.result.state = .PENDING then
    { st with result := (st.result.reject (.ptr e)).1 }
  else
    st

/-- One settlement of one input promise, as observed by the continuation that
`all_coordinator::attach` (all.hpp lines 31-52) installed on it: input `i`
either resolves with a value of its type or rejects with an error. -/
inductive settlement (n : Nat) (T : Fin n → Type) (ρ : Type) where
  | res (i : Fin n) (v : T i)
  | rej (i : Fin n) (e : exception_ptr ρ)

/-- The coordinator transition for one input settlement. -/
def all_step {n : Nat} {T : Fin n → Type} {ρ : Type}
    (st : all_state n T ρ) : settlement n T ρ → all_state n T ρ
  | .res i v => all_on_resolve st i v
  | .rej _ e => all_on_reject st e

/-- The coordinator driven by a sequence of input settlements, in their
settlement order. -/
def all_run {n : Nat} {T : Fin n → Type} {ρ : Type}
    (st : all_state n T ρ) (tr : List (settlement n T ρ)) : all_state n T ρ :=
  tr.foldl all_step st

/-- The list of settlements in which the inputs listed in `l` resolve, each
with its value under the assignment `V`, in the order of `l`. -/
def res_trace {n : Nat} {T : Fin n → Type} (ρ : Type) (V : ∀ i, T i)
    (l : List (Fin n)) : List (settlement n T ρ) :=
  l.map fun i => .res i (V i)

/-- Proof auxiliary: the coordinator state after exactly the inputs in `s`
have resolved (with their values under `V`): their slots filled, the counter
counted down, and the result promise resolved with the full tuple exactly
when every input has resolved. -/
def all_mid {n : Nat} {T : Fin n → Type} (ρ : Type) (V : ∀ i, T i)
    (s : Finset (Fin n)) : all_state n T ρ :=
  { working_area := fun j => if j ∈ s then some (V j) else none,
    counter := n - s.card,
    result :=
      if s = Finset.univ then
        { state := .RESOLVED, value := .value V, on_settle := false }
      else {} }

/-- State of the promise returned by `juro::compose::race` (race.hpp lines
40-72) over inputs of storage types `T i`: the result promise holds the
variant type `V`, into which input `i`'s values convert via `inj i` (the
implicit conversion performed by `race_promise->resolve(std::move(value))`;
when all inputs share one type, `V` is that type and `inj` the identity). -/
structure race_state (V ρ : Type) where
  result : promise V ρ

/-- The continuation `race` installs on every input (race.hpp lines 42-69):
on either settlement, settle the race promise likewise if it is still
pending, otherwise do nothing. -/
def race_step {n : Nat} {T : Fin n → Type} {V ρ : Type} (inj : ∀ i, T i → V)
    (st : race_state V ρ) : settlement n T ρ → race_state V ρ
  | .res i v =>
    if st.result.state = .PENDING then
      { result := (st.result.resolve (inj i v)).1 }
    else st
  | .rej _ e =>
    if st.result.state = .PENDING then
      { result := (st.result.reject (.ptr e)).1 }
    else st

/-- The race promise driven by a sequence of input settlements. -/
def race_run {n : Nat} {T : Fin n → Type} {V ρ : Type} (inj : ∀ i, T i → V)
    (st : race_state V ρ) (tr : List (settlement n T ρ)) : race_state V ρ :=
  tr.foldl (race_step inj) st

/-- The pending race promise created by `make_promise` inside `race`. -/
def race_init (V ρ : Type) : race_state V ρ := { result := {} }

end juro

namespace fuss

/-- A handler registered on a `fuss::shouter<T_message>` (fuss.hpp lines
349-413), for the purposes of broadcast re-entrancy: a label identifying it
and the list of new handlers its functor registers via `listen` when it is
invoked (`listen` appends each at the end of the live handler list, fuss.hpp
lines 386-395). -/
inductive bus_handler where
  | mk (label : Nat) (spawns : List bus_handler)

/-- The label of a handler. -/
def bus_handler.label : bus_handler → Nat
  | .mk l _ => l

/-- The handlers a handler registers during its own invocation. -/
def bus_handler.spawns : bus_handler → List bus_handler
  | .mk _ s => s

mutual

/-- Size of a handler (for termination of the broadcast model). -/
def hsize : bus_handler → Nat
  | .mk _ s => 1 + lsize s

/-- Total size of a handler list. -/
def lsize : List bus_handler → Nat
  | [] => 0
  | h :: t => hsize h + lsize t

end

theorem lsize_append (a b : List bus_handler) :
    lsize (a ++ b) = lsize a + lsize b := by
  induction a with
  | nil => simp [lsize]
  | cons h t ih =>
    simp only [List.cons_append, lsize, List.append_eq] at ih ⊢
    omega

theorem lsize_spawns_lt (h : bus_handler) : lsize h.spawns < hsize h := by
  cases h with
  | mk l s =>
    simp only [bus_handler.spawns, hsize]
    omega

/-- `shouter<T_message>::shout` (fuss.hpp lines 406-412) iterates the live
`std::list` of handlers with `for(auto &handler : handlers)` while `listen`
appends new handlers at its end, so the iteration also reaches handlers
appended during the broadcast. `shout_from live i` is the sequence of
handler labels invoked from position `i` of the live list onward. -/
def shout_from (live : List bus_handler) (i : Nat) : List Nat :=
  if h : i < live.length then
    let hd := live.get ⟨i, h⟩
    hd.label :: shout_from (live ++ hd.spawns) (i + 1)
  else []
termination_by lsize (live.drop i)
decreasing_by
  have hd : live.drop i = live.get ⟨i, h⟩ :: live.drop (i + 1) :=
    List.drop_eq_getElem_cons h
  rw [List.drop_append_of_le_length (by omega), hd]
  simp only [lsize, lsize_append]
  have := lsize_spawns_lt (live.get ⟨i, h⟩)
  omega

/-- The full broadcast: iterate the live handler list from its beginning. -/
def shout (handlers : List bus_handler) : List Nat :=
  shout_from handlers 0

/-- Queue view of the same broadcast: invoke the head, then continue with the
rest of the live list followed by the handlers the head just appended. -/
def shout_queue (q : List bus_handler) : List Nat :=
  match q with
  | [] => []
  | h :: rest => h.label :: shout_queue (rest ++ h.spawns)
termination_by lsize q
decreasing_by
  simp only [lsize, lsize_append]
  have := lsize_spawns_lt h
  omega

end fuss

namespace fugax

/-- The `config::fugax::time_type` counter is `std::uint32_t`; additions of
counter and delay wrap modulo `U32`. -/
def U32 : Nat := 2 ^ 32

/-- `fugax::schedule_policy` (event-loop.hpp lines 58-64). -/
inductive schedule_policy where
  | immediate
  | delayed
  | recurring_immediate
  | recurring_delayed
  | always
deriving DecidableEq, Repr

/-- The body of an event handler, deep-embedded as the loop-affecting actions
a firing handler can perform: invoke its user functor (observable, tagged),
cancel itself through the `event &` it receives (event.cpp `event::cancel`),
cancel or reschedule another event through a captured listener, or schedule a
new event (`event_loop::schedule`, with the new event's own handler body). -/
inductive hcmd where
  | invoke (tag : Nat)
  | cancel_self
  | cancel_ev (id : Nat)
  | resched_self (t : Nat)
  | resched_ev (id : Nat) (t : Nat)
  | sched (delay : Nat) (policy : schedule_policy) (body : List hcmd)

/-- `fugax::event` (event.hpp lines 127-199): interval and recurring flag are
immutable after construction; `due_time` is mutated by `reschedule` and
`cancelled` is set by `cancel`. The handler is the deep-embedded body. -/
structure event where
  interval : Nat
  body : List hcmd
  recurring : Bool
  due_time : Nat
  cancelled : Bool

/-- `fugax::event_loop` (event-loop.hpp lines 66-74): the timer map is an
ordered `std::map<std::uint32_t, std::list<std::shared_ptr<event>>>`,
modelled as an association list sorted by key whose values are lists of
event identifiers; `store` maps each identifier to the shared event object
it denotes; `next_id` generates fresh identifiers for newly scheduled
events. -/
structure event_loop where
  timers : List (Nat × List Nat)
  store : List (Nat × event)
  counter : Nat
  next_id : Nat

/-- A fresh `fugax::event_loop`. -/
def empty_loop : event_loop :=
  { timers := [], store := [], counter := 0, next_id := 0 }

/-- `timers[slot]` followed by appending at the end of that slot's list
(`emplace_back` / `splice` at `target.end()`): inserts the key in order when
absent. -/
def timer_insert : List (Nat × List Nat) → Nat → Nat → List (Nat × List Nat)
  | [], k, id => [(k, [id])]
  | (t, l) :: rest, k, id =>
    if k < t then (k, [id]) :: (t, l) :: rest
    else if k = t then (t, l ++ [id]) :: rest
    else (t, l) :: timer_insert rest k id

/-- Dereference an event identifier (follow the shared pointer). -/
def store_find : List (Nat × event) → Nat → Option event
  | [], _ => none
  | p :: rest, id => if p.1 = id then some p.2 else store_find rest id

/-- Mutate the shared event object named by `id`. -/
def store_modify (s : List (Nat × event)) (id : Nat) (f : event → event) :
    List (Nat × event) :=
  s.map fun p => if p.1 = id then (p.1, f p.2) else p

/-- `event::cancel` (event.cpp line 15): set the one-way `cancelled` flag.
Cancelling an identifier whose event no longer exists is a no-op through the
expired weak pointer; in the model a stale store entry may be flagged, which
no remaining behaviour observes. -/
def ev_cancel (L : event_loop) (id : Nat) : event_loop :=
  { L with store := store_modify L.store id fun ev => { ev with cancelled := true } }

/-- `event::reschedule` (event.cpp line 16): overwrite `due_time`. -/
def ev_resched (L : event_loop) (id : Nat) (t : Nat) : event_loop :=
  { L with store := store_modify L.store id fun ev => { ev with due_time := t } }

/-- `event_loop::schedule(delay, policy, functor)` (event-loop.cpp lines
45-74): select the slot and recurring flag per policy (`counter + delay`
wraps in `std::uint32_t`), then store a new event at `timers[slot]`. The
source constructs the event with `delay` as its interval argument (line 72),
not the `interval` variable computed in the switch, so the model stores
`delay`. Returns the listener (the new event's identifier). -/
def schedule_core (L : event_loop) (delay : Nat) (policy : schedule_policy)
    (body : List hcmd) : event_loop × Nat :=
  let slot : Nat :=
    match policy with
    | .immediate => L.counter
    | .delayed => (L.counter + delay) % U32
    | .recurring_immediate => L.counter
    | .recurring_delayed => (L.counter + delay) % U32
    | .always => L.counter
  let recurring : Bool :=
    match policy with
    | .immediate => false
    | .delayed => false
    | .recurring_immediate => true
    | .recurring_delayed => true
    | .always => true
  let ev : event :=
    { interval := delay, body := body, recurring := recurring,
      due_time := slot, cancelled := false }
  ({ L with timers := timer_insert L.timers slot L.next_id,
            store := L.store ++ [(L.next_id, ev)],
            next_id := L.next_id + 1 },
   L.next_id)

/-- Run one handler command against the loop, producing the list of user
functor invocations it performs. `self` is the identifier of the firing
event (the `event &` passed to the handler). -/
def exec_cmd (self : Nat) (L : event_loop) : hcmd → event_loop × List Nat
  | .invoke tag => (L, [tag])
  | .cancel_self => (ev_cancel L self, [])
  | .cancel_ev id => (ev_cancel L id, [])
  | .resched_self t => (ev_resched L self t, [])
  | .resched_ev id t => (ev_resched L id t, [])
  | .sched delay policy body => ((schedule_core L delay policy body).1, [])

/-- Run a handler body (`event::fire` invoking the wrapped functor, whose
loop-affecting actions run in order). -/
def exec_cmds (self : Nat) : List hcmd → event_loop → event_loop × List Nat
  | [], L => (L, [])
  | c :: cs, L =>
    let r := exec_cmd self L c
    let r2 := exec_cmds self cs r.1
    (r2.1, r.2 ++ r2.2)

/-- `event_loop::get_due_timers` (event-loop.cpp lines 116-133): walk the
sorted map from the smallest key; stop at the first key greater than `now`;
splice each visited slot's events (in key order) onto the queue; erase the
visited entry unless its key equals `now` (that entry stays, emptied).
Returns the remaining map and the local queue. -/
def due_split : List (Nat × List Nat) → Nat → List (Nat × List Nat) × List Nat
  | [], _ => ([], [])
  | (t, l) :: rest, now =>
    if now < t then ((t, l) :: rest, [])
    else
      let r := due_split rest now
      if t = now then ((t, ([] : List Nat)) :: r.1, l ++ r.2)
      else (r.1, l ++ r.2)

/-- Result of one `process(now)` tick: the final loop, the identifiers of the
events that fired, and the user functor invocations performed. -/
structure tick_result where
  loop : event_loop
  fired : List Nat
  calls : List Nat

/-- The queue walk of `event_loop::process` (event-loop.cpp lines 83-104):
skip and drop cancelled events; fire events whose `due_time ≤ now` and, when
recurring, splice them back into `timers[now + interval]` (uint32 wrap);
splice events with `due_time > now` (rescheduled while queued) back into
`timers[due_time]`. -/
def process_queue (now : Nat) : List Nat → event_loop → tick_result
  | [], L => ⟨L, [], []⟩
  | id :: rest, L =>
    match store_find L.store id with
    | none => process_queue now rest L
    | some ev =>
      if ev.cancelled then process_queue now rest L
      else if ev.due_time ≤ now then
        let r := exec_cmds id ev.body L
        let L2 :=
          if ev.recurring then
            { r.1 with timers :=
                timer_insert r.1.timers ((now + ev.interval) % U32) id }
          else r.1
        let rr := process_queue now rest L2
        ⟨rr.loop, id :: rr.fired, r.2 ++ rr.calls⟩
      else
        let L2 := { L with timers := timer_insert L.timers ev.due_time id }
        process_queue now rest L2

/-- `event_loop::process(now)` (event-loop.cpp lines 80-107): splice out the
due slots, walk the local queue, finally set the counter to `now`. -/
def process (L : event_loop) (now : Nat) : tick_result :=
  let s := due_split L.timers now
  let r := process_queue now s.2 { L with timers := s.1 }
  ⟨{ r.loop with counter := now }, r.fired, r.calls⟩

/-- Drive the loop through a sequence of `process` calls, discarding the
per-tick observations. -/
def process_many (L : event_loop) (ts : List Nat) : event_loop :=
  ts.foldl (fun M t => (process M t).loop) L

/-- All event identifiers present in a timer map. -/
def timer_ids (ts : List (Nat × List Nat)) : List Nat :=
  ts.foldr (fun p acc => p.2 ++ acc) []

/-- The timer map keys are strictly ascending (the `std::map` invariant). -/
def timers_sorted : List (Nat × List Nat) → Bool
  | [] => true
  | [_] => true
  | a :: b :: rest => decide (a.1 < b.1) && timers_sorted (b :: rest)

mutual

/-- A command references only event identifiers below `N` (a handler closure
can only capture listeners to events that already exist). -/
def cmd_closed (N : Nat) : hcmd → Bool
  | .invoke _ => true
  | .cancel_self => true
  | .cancel_ev id => decide (id < N)
  | .resched_self _ => true
  | .resched_ev id _ => decide (id < N)
  | .sched _ _ body => cmds_closed N body

/-- A body references only event identifiers below `N`. -/
def cmds_closed (N : Nat) : List hcmd → Bool
  | [] => true
  | c :: cs => cmd_closed N c && cmds_closed N cs

end

mutual

/-- A command references the event identifier `e`. -/
def cmd_mentions (e : Nat) : hcmd → Bool
  | .invoke _ => false
  | .cancel_self => false
  | .cancel_ev id => decide (id = e)
  | .resched_self _ => false
  | .resched_ev id _ => decide (id = e)
  | .sched _ _ body => cmds_mention e body

/-- Some command of the body references the event identifier `e`. -/
def cmds_mention (e : Nat) : List hcmd → Bool
  | [] => false
  | c :: cs => cmd_mentions e c || cmds_mention e cs

end

/-- Well-formedness of a loop state: sorted timer map, every scheduled
identifier already allocated, every stored entry allocated with a body
referencing only allocated identifiers, counter in `std::uint32_t` range. -/
def wf (L : event_loop) : Bool :=
  timers_sorted L.timers &&
  (timer_ids L.timers).all (fun id => decide (id < L.next_id)) &&
  L.store.all (fun p => decide (p.1 < L.next_id) && cmds_closed L.next_id p.2.body) &&
  decide (L.counter < U32)

/-- `guard->get().lock()` succeeds exactly while the event object is still
owned by the timer map (after firing or being dropped it is destroyed with
the local queue). -/
def alive (L : event_loop) (id : Nat) : Bool :=
  (timer_ids L.timers).contains id

/-- One invocation of the callable returned by `event_loop::debounce`
(event-loop.hpp lines 87-106) with argument snapshot `a`: if the guarded
event is still alive, only its due time is updated to `counter + delay` (the
captured arguments are not updated); otherwise a new delayed event is
scheduled whose handler applies the functor to the arguments captured at
this invocation. -/
def debounce_call (delay : Nat) (L : event_loop) (g : Option Nat) (a : Nat) :
    event_loop × Option Nat :=
  match g with
  | some id =>
    if alive L id then (ev_resched L id ((L.counter + delay) % U32), some id)
    else
      let r := schedule_core L delay .delayed [.invoke a]
      (r.1, some r.2)
  | none =>
    let r := schedule_core L delay .delayed [.invoke a]
    (r.1, some r.2)

/-- A debounce burst: for each `(t, a)` in the list, drive `process(t)` and
then invoke the debounced callable with argument snapshot `a`, accumulating
every user functor call the processing performs. -/
def burst_run (delay : Nat) :
    List (Nat × Nat) → event_loop → Option Nat → List Nat →
    event_loop × Option Nat × List Nat
  | [], L, g, out => (L, g, out)
  | (t, a) :: rest, L, g, out =>
    let pr := process L t
    let dc := debounce_call delay pr.loop g a
    burst_run delay rest dc.1 dc.2 (out ++ pr.calls)

/-- Event `e` is stored in the timer map under key `k`. -/
def mem_timer (ts : List (Nat × List Nat)) (k : Nat) (e : Nat) : Prop :=
  ∃ l, (k, l) ∈ ts ∧ e ∈ l

/-- Event `e` occurs in the timer map only under key `k`. -/
def only_at (ts : List (Nat × List Nat)) (k : Nat) (e : Nat) : Prop :=
  ∀ k' l', (k', l') ∈ ts → e ∈ l' → k' = k

/-- No handler body stored in `s` references event `e`. -/
def no_mention (e : Nat) (s : List (Nat × event)) : Prop :=
  ∀ id ev, store_find s id = some ev → cmds_mention e ev.body = false

/-- Every identifier present in the timer map has already been allocated. -/
def ids_lt (L : event_loop) : Prop :=
  ∀ x ∈ timer_ids L.timers, x < L.next_id

/-- The situation of a freshly allocated identifier `e` (`N0 ≤ e` at the
start of a tick) while the tick's queue is processed: either `e` has not
been scheduled yet — it is outside the store and the timer map — or it has
been scheduled and is uncancelled, stored in the timer map exactly at its
due-time slot. In both cases no stored handler body references `e` and the
timer map is sorted. -/
def fresh_ok (e : Nat) (M : event_loop) : Prop :=
  timers_sorted M.timers = true ∧ no_mention e M.store ∧
  ((M.next_id ≤ e ∧ store_find M.store e = none ∧ ∀ k, ¬ mem_timer M.timers k e)
    ∨ (e < M.next_id ∧ ∃ ev, store_find M.store e = some ev ∧
        ev.cancelled = false ∧ mem_timer M.timers ev.due_time e ∧
        only_at M.timers ev.due_time e))

/-- A one-event loop whose handler, when fired, schedules a new delayed
event: a concrete input for the same-tick scheduling property. -/
def sched_demo : event_loop :=
  { timers := [(0, [0])],
    store := [(0, { interval := 0, body := [.sched 5 .delayed []],
                    recurring := false, due_time := 0, cancelled := false })],
    counter := 0, next_id := 1 }

/-- A loop holding one recurring event whose handler cancels it through the
`event &` reference it receives. -/
def self_cancel_demo : event_loop :=
  { timers := [(0, [0])],
    store := [(0, { interval := 5, body := [.cancel_self], recurring := true,
                    due_time := 0, cancelled := false })],
    counter := 0, next_id := 1 }

/-- A debounce burst is admissible when its invocation times are monotone and
each invocation occurs strictly within `delay` units of the previous one. -/
def burst_chain (delay : Nat) : Nat → List (Nat × Nat) → Bool
  | _, [] => true
  | tprev, (t, _) :: rest =>
    decide (tprev ≤ t) && decide (t < tprev + delay) &&
      burst_chain delay t rest

/-- The time of the last invocation of a burst (`t` when the list is empty). -/
def last_time (t : Nat) : List (Nat × Nat) → Nat
  | [] => t
  | (t', _) :: rest => last_time t' rest

/-- The loop state between debounce-burst invocations: the single pending
event (identifier `0`) sits in the timer map under one key `key` no later
than its due time `tprev + delay` (with at most one emptied slot left over
by `get_due_timers`), and the stored event still carries the handler built
from the burst's first argument `a₁`. -/
def dstate (delay a₁ tprev : Nat) (L : event_loop) : Prop :=
  ∃ key,
    (L.timers = [(key, [0])] ∨
      ∃ j, j < key ∧ L.timers = [(j, []), (key, [0])]) ∧
    key ≤ tprev + delay ∧
    L.store = [(0, { interval := delay, body := [hcmd.invoke a₁],
                     recurring := false, due_time := tprev + delay,
                     cancelled := false })] ∧
    L.counter = tprev ∧ L.next_id = 1

/-- An empty loop whose counter sits `10` units below the `std::uint32_t`
wrap-around point. -/
def wrap_demo : event_loop :=
  { timers := [], store := [], counter := U32 - 10, next_id := 0 }

end fugax

namespace juro

/-- C1: for every promise (of any value type) that is already settled, any
further call to `resolve` or to `reject` throws a `promise_error` and leaves
the promise's state and stored value unchanged; settled states are
terminal. -/
theorem C1_settled_terminal {α ρ : Type} (p : promise α ρ)
    (h : p.is_settled = true) (v : α) (e : reject_arg ρ) :
    (p.resolve v).1 = p ∧
    (p.resolve v).2 = .threw "Attempted to resolve an already settled promise" ∧
    (p.reject e).1 = p ∧
    (p.reject e).2 = .threw "Attempted to reject an already settled promise" := by
  simp [promise.resolve, promise.reject, h]

/-- Witness for C1 at a concrete settled promise. -/
theorem C1_settled_terminal_witness :
    ((make_rejected Nat Nat (.raw 7)).resolve 5).1 = make_rejected Nat Nat (.raw 7) ∧
    ((make_rejected Nat Nat (.raw 7)).resolve 5).2 =
      .threw "Attempted to resolve an already settled promise" ∧
    ((make_rejected Nat Nat (.raw 7)).reject (.raw 3)).1 = make_rejected Nat Nat (.raw 7) ∧
    ((make_rejected Nat Nat (.raw 7)).reject (.raw 3)).2 =
      .threw "Attempted to reject an already settled promise" :=
  C1_settled_terminal (make_rejected Nat Nat (.raw 7)) (by decide) 5 (.raw 3)

/-- C2: rejecting a pending promise wraps the supplied value into an
exception pointer (identity if it already is one), stores it, transitions
the promise to REJECTED, and invokes the settle callback when one is
attached; when none is attached, "Unhandled promise rejection" is thrown out
of `reject` while the promise is nonetheless left rejected holding the
wrapped error. The `make_rejected` factory constructs the promise directly
in the rejected state with no raise, and attaching a settle handler to it
later runs that handler synchronously during the attachment. -/
theorem C2_reject_semantics {α ρ : Type} (p : promise α ρ)
    (hp : p.state = .PENDING) (e f : reject_arg ρ) :
    ((p.reject e).1.state = .REJECTED ∧
     (p.reject e).1.value = .error (rejection_value e) ∧
     (p.on_settle = true → (p.reject e).2 = .ok true) ∧
     (p.on_settle = false → (p.reject e).2 = .threw "Unhandled promise rejection")) ∧
    (make_rejected α ρ f =
      { state := .REJECTED, value := .error (rejection_value f), on_settle := false }) ∧
    (make_rejected α ρ f).set_settle_handler.2 = true := by
  have hs : p.is_settled = false := by
    simp [promise.is_settled, hp]
  refine ⟨?_, rfl, by simp [make_rejected, promise.set_settle_handler, promise.is_settled]⟩
  cases hos : p.on_settle <;>
    simp [promise.reject, hs, hos]

/-- Witness for C2 at concrete pending promises. -/
theorem C2_reject_semantics_witness :
    (((make_pending Nat Nat).reject (.raw 4)).1.state = .REJECTED ∧
     ((make_pending Nat Nat).reject (.raw 4)).1.value = .error (rejection_value (.raw 4)) ∧
     ((make_pending Nat Nat).on_settle = true →
       ((make_pending Nat Nat).reject (.raw 4)).2 = .ok true) ∧
     ((make_pending Nat Nat).on_settle = false →
       ((make_pending Nat Nat).reject (.raw 4)).2 = .threw "Unhandled promise rejection")) ∧
    (make_rejected Nat Nat (.raw 9) =
      { state := .REJECTED, value := .error (rejection_value (.raw 9)), on_settle := false }) ∧
    (make_rejected Nat Nat (.raw 9)).set_settle_handler.2 = true :=
  C2_reject_semantics (make_pending Nat Nat) (by decide) (.raw 4) (.raw 9)

/-- C5: if `p` is piped to `q` (with `q` pending, the pipe contract), then
whenever `p` settles with a state and a value or error, `q` settles with the
same state and the same value or error — both when `p` is still pending at
piping time and settles afterwards, and when `p` is already settled at the
moment of piping, in which case `q` is settled synchronously by the pipe
call itself. -/
theorem C5_pipe_identity {α ρ : Type} (p q : promise α ρ)
    (hq : q.state = .PENDING) :
    (p.state = .PENDING →
      (∀ v : α,
        (pipe_settle_resolve (pipe p q).1 v).1.q.state = .RESOLVED ∧
        (pipe_settle_resolve (pipe p q).1 v).1.q.value = .value v) ∧
      (∀ e : reject_arg ρ,
        (pipe_settle_reject (pipe p q).1 e).1.q.state = .REJECTED ∧
        (pipe_settle_reject (pipe p q).1 e).1.q.value = .error (rejection_value e))) ∧
    (∀ v : α, p.state = .RESOLVED → p.value = .value v →
      (pipe p q).1.q.state = .RESOLVED ∧ (pipe p q).1.q.value = .value v) ∧
    (∀ e : exception_ptr ρ, p.state = .REJECTED → p.value = .error e →
      (pipe p q).1.q.state = .REJECTED ∧ (pipe p q).1.q.value = .error e) := by
  have hqs : q.is_settled = false := by simp [promise.is_settled, hq]
  refine ⟨?_, ?_, ?_⟩
  · intro hp
    have hps : p.is_settled = false := by simp [promise.is_settled, hp]
    constructor
    · intro v
      simp only [pipe, hps, if_neg, Bool.false_eq_true, ite_false]
      simp [pipe_settle_resolve, pipe_callback, promise.is_settled, hp, hq,
        promise.resolve, promise.reject, hqs]
    · intro e
      simp only [pipe, hps, Bool.false_eq_true, ite_false]
      cases hos : q.on_settle <;>
        simp [pipe_settle_reject, pipe_callback, promise.is_settled, hp, hq,
          promise.resolve, promise.reject, rejection_value, hqs, hos]
  · intro v hp hv
    have hps : p.is_settled = true := by simp [promise.is_settled, hp]
    simp [pipe, hps, pipe_callback, hp, hv, hq, promise.resolve, promise.reject,
      promise.is_settled, hqs]
  · intro e hp hv
    have hps : p.is_settled = true := by simp [promise.is_settled, hp]
    cases hos : q.on_settle <;>
      simp [pipe, hps, pipe_callback, hp, hv, hq, promise.resolve, promise.reject,
        promise.is_settled, rejection_value, hqs, hos]

/-- Witness for C5 at concrete promises. -/
theorem C5_pipe_identity_witness :
    ((make_pending Nat Nat).state = .PENDING →
      (∀ v : Nat,
        (pipe_settle_resolve (pipe (make_pending Nat Nat) (make_pending Nat Nat)).1 v).1.q.state = .RESOLVED ∧
        (pipe_settle_resolve (pipe (make_pending Nat Nat) (make_pending Nat Nat)).1 v).1.q.value = .value v) ∧
      (∀ e : reject_arg Nat,
        (pipe_settle_reject (pipe (make_pending Nat Nat) (make_pending Nat Nat)).1 e).1.q.state = .REJECTED ∧
        (pipe_settle_reject (pipe (make_pending Nat Nat) (make_pending Nat Nat)).1 e).1.q.value = .error (rejection_value e))) ∧
    (∀ v : Nat, (make_pending Nat Nat).state = .RESOLVED → (make_pending Nat Nat).value = .value v →
      (pipe (make_pending Nat Nat) (make_pending Nat Nat)).1.q.state = .RESOLVED ∧
      (pipe (make_pending Nat Nat) (make_pending Nat Nat)).1.q.value = .value v) ∧
    (∀ e : exception_ptr Nat, (make_pending Nat Nat).state = .REJECTED → (make_pending Nat Nat).value = .error e →
      (pipe (make_pending Nat Nat) (make_pending Nat Nat)).1.q.state = .REJECTED ∧
      (pipe (make_pending Nat Nat) (make_pending Nat Nat)).1.q.value = .error e) :=
  C5_pipe_identity (make_pending Nat Nat) (make_pending Nat Nat) (by decide)

end juro

namespace juro

theorem race_step_settled {n : Nat} {T : Fin n → Type} {V ρ : Type}
    (inj : ∀ i, T i → V) (st : race_state V ρ)
    (h : st.result.state ≠ .PENDING) (ev : settlement n T ρ) :
    race_step inj st ev = st := by
  cases ev <;> simp [race_step, h]

theorem race_run_settled {n : Nat} {T : Fin n → Type} {V ρ : Type}
    (inj : ∀ i, T i → V) (st : race_state V ρ)
    (h : st.result.state ≠ .PENDING) (tr : List (settlement n T ρ)) :
    race_run inj st tr = st := by
  induction tr with
  | nil => rfl
  | cons ev tr ih =>
    show race_run inj (race_step inj st ev) tr = st
    rw [race_step_settled inj st h ev, ih]

/-- C4: the promise returned by `race(p₁,…,pₙ)` settles with the state and
the (variant-injected) value or error of the first input settlement, and
every subsequent settlement of any other input leaves its state and value
unchanged. -/
theorem C4_race_first_settlement {n : Nat} {T : Fin n → Type} {V ρ : Type}
    (inj : ∀ i, T i → V) (ev : settlement n T ρ)
    (tr : List (settlement n T ρ)) :
    race_run inj (race_init V ρ) (ev :: tr) = race_step inj (race_init V ρ) ev ∧
    (match ev with
     | .res i v =>
       (race_step inj (race_init V ρ) ev).result.state = .RESOLVED ∧
       (race_step inj (race_init V ρ) ev).result.value = .value (inj i v)
     | .rej _ e =>
       (race_step inj (race_init V ρ) ev).result.state = .REJECTED ∧
       (race_step inj (race_init V ρ) ev).result.value = .error e) := by
  have hset : ∀ st : race_state V ρ, st = race_step inj (race_init V ρ) ev →
      st.result.state ≠ .PENDING := by
    intro st hst
    cases ev <;>
      simp [hst, race_step, race_init, promise.resolve, promise.reject,
        promise.is_settled]
  constructor
  · show race_run inj (race_step inj (race_init V ρ) ev) tr = _
    exact race_run_settled inj _ (hset _ rfl) tr
  · cases ev <;>
      simp [race_step, race_init, promise.resolve, promise.reject,
        promise.is_settled, rejection_value]

theorem all_on_resolve_mid {n : Nat} {T : Fin n → Type} {ρ : Type}
    (V : ∀ i, T i) (hsz : n < SIZE_T) (s : Finset (Fin n)) (i : Fin n)
    (hi : i ∉ s) :
    all_on_resolve (all_mid ρ V s) i (V i) = all_mid ρ V (insert i s) := by
  have hsu : s ≠ Finset.univ := by
    intro h
    exact hi (h ▸ Finset.mem_univ i)
  have hcard : s.card < n := by
    have hle : s.card ≤ Fintype.card (Fin n) := Finset.card_le_univ s
    rw [Fintype.card_fin] at hle
    rcases lt_or_eq_of_le hle with h | h
    · exact h
    · exact absurd ((Finset.card_eq_iff_eq_univ s).mp (by simp [h])) hsu
  have hwa : Function.update
      (fun j => if j ∈ s then some (V j) else none) i (some (V i)) =
      fun j => if j ∈ insert i s then some (V j) else none := by
    funext j
    by_cases hji : j = i
    · subst hji
      simp [Function.update]
    · simp [Function.update, hji, Finset.mem_insert]
  have hcnt : (n - s.card + (SIZE_T - 1)) % SIZE_T = n - (s.card + 1) := by
    have h1 : n - s.card + (SIZE_T - 1) = (n - (s.card + 1)) + SIZE_T := by
      have : 0 < SIZE_T := by
        rw [SIZE_T]
        positivity
      omega
    rw [h1, Nat.add_mod_right, Nat.mod_eq_of_lt (by omega)]
  have hicard : (insert i s).card = s.card + 1 := Finset.card_insert_of_not_mem hi
  simp only [all_on_resolve, all_mid, hsu, if_false, hwa, hcnt]
  by_cases hfull : insert i s = Finset.univ
  · have hc0 : n - (s.card + 1) = 0 := by
      have hcn : (insert i s).card = n := by
        rw [hfull, Finset.card_univ, Fintype.card_fin]
      omega
    have hall : ∀ j : Fin n,
        (if j ∈ (Finset.univ : Finset (Fin n)) then some (V j) else none).isSome = true := by
      intro j
      simp
    have huc : n - (Finset.univ : Finset (Fin n)).card = 0 := by
      rw [Finset.card_univ, Fintype.card_fin, Nat.sub_self]
    simp only [hc0, hfull, if_true, hicard]
    rw [if_pos ⟨trivial, trivial⟩, dif_pos hall, huc]
    have hval : (fun j =>
        (if j ∈ (Finset.univ : Finset (Fin n)) then some (V j) else none).get (hall j)) = V := by
      funext j
      simp
    simp only [all_state.mk.injEq, promise.resolve, promise.is_settled, hval]
    norm_num
  · have hc0 : n - (s.card + 1) ≠ 0 := by
      have hle : (insert i s).card ≤ Fintype.card (Fin n) := Finset.card_le_univ _
      rw [Fintype.card_fin] at hle
      have hne : (insert i s).card ≠ n := by
        intro h
        exact hfull ((Finset.card_eq_iff_eq_univ _).mp (by simp [h]))
      omega
    simp only [hfull, if_false, hicard]
    simp [hc0]

end juro

namespace juro

theorem all_run_res_mid {n : Nat} {T : Fin n → Type} {ρ : Type}
    (V : ∀ i, T i) (hsz : n < SIZE_T) :
    ∀ (l : List (Fin n)) (s : Finset (Fin n)), l.Nodup → (∀ i ∈ l, i ∉ s) →
      all_run (all_mid ρ V s) (res_trace ρ V l) = all_mid ρ V (s ∪ l.toFinset) := by
  intro l
  induction l with
  | nil =>
    intro s _ _
    simp [all_run, res_trace]
  | cons i l ih =>
    intro s hnd hdisj
    have hi : i ∉ s := hdisj i (by simp)
    have hdisj2 : ∀ j ∈ l, j ∉ insert i s := by
      intro j hj
      rw [Finset.mem_insert]
      push_neg
      exact ⟨fun hji => (List.nodup_cons.mp hnd).1 (hji ▸ hj), hdisj j (by simp [hj])⟩
    have hstep : all_run (all_mid ρ V s) (res_trace ρ V (i :: l)) =
        all_run (all_on_resolve (all_mid ρ V s) i (V i)) (res_trace ρ V l) := by
      simp only [res_trace, List.map_cons, all_run, List.foldl_cons, all_step]
    rw [hstep, all_on_resolve_mid V hsz s i hi,
      ih (insert i s) (List.nodup_cons.mp hnd).2 hdisj2]
    congr 1
    ext j
    simp only [Finset.mem_insert, Finset.mem_union, List.mem_toFinset, List.toFinset_cons,
      List.mem_cons]
    tauto

theorem all_step_settled {n : Nat} {T : Fin n → Type} {ρ : Type}
    (st : all_state n T ρ) (h : st.result.state ≠ .PENDING)
    (ev : settlement n T ρ) : (all_step st ev).result = st.result := by
  cases ev with
  | res i v =>
    show (all_on_resolve st i v).result = st.result
    rw [all_on_resolve]
    simp only [h, and_false, if_false]
  | rej i e =>
    show (all_on_reject st e).result = st.result
    rw [all_on_reject]
    simp [h]

theorem all_run_settled {n : Nat} {T : Fin n → Type} {ρ : Type}
    (st : all_state n T ρ) (h : st.result.state ≠ .PENDING)
    (tr : List (settlement n T ρ)) : (all_run st tr).result = st.result := by
  induction tr generalizing st with
  | nil => rfl
  | cons ev tr ih =>
    show (all_run (all_step st ev) tr).result = st.result
    rw [ih (all_step st ev) (by rw [all_step_settled st h ev]; exact h),
      all_step_settled st h ev]

theorem all_init_eq_mid {n : Nat} {T : Fin n → Type} {ρ : Type}
    (V : ∀ i, T i) (hn : 0 < n) :
    all_init n T ρ = all_mid ρ V ∅ := by
  have hne : (∅ : Finset (Fin n)) ≠ Finset.univ := by
    intro h
    have hc := congrArg Finset.card h
    rw [Finset.card_empty, Finset.card_univ, Fintype.card_fin] at hc
    omega
  simp [all_init, all_mid, hne]
end juro

namespace juro

/-- C3: for `all(p₁,…,pₙ)` over non-void (storage-mapped) inputs: if every
input resolves, in any settlement order `l`, with values `V`, the returned
promise resolves with the tuple of the values in input position order, and
it stays pending until the last input has resolved; if some input rejects
while the returned promise is still pending (necessarily before all inputs
have resolved), the returned promise rejects with that first rejection's
error and every subsequent input settlement leaves it unchanged. -/
theorem C3_all_tuple_identity {n : Nat} {T : Fin n → Type} {ρ : Type}
    (V : ∀ i, T i) (hn : 0 < n) (hsz : n < SIZE_T)
    (l : List (Fin n)) (hl : l.Nodup) (hcov : ∀ i, i ∈ l)
    (l1 : List (Fin n)) (h1 : l1.Nodup) (i : Fin n) (hi : i ∉ l1)
    (e : exception_ptr ρ) (tr2 : List (settlement n T ρ)) :
    ((all_run (all_init n T ρ) (res_trace ρ V l)).result.state = .RESOLVED ∧
     (all_run (all_init n T ρ) (res_trace ρ V l)).result.value = .value V) ∧
    (∀ lp ls, l = lp ++ ls → ls ≠ [] →
      (all_run (all_init n T ρ) (res_trace ρ V lp)).result.state = .PENDING) ∧
    ((all_run (all_init n T ρ) (res_trace ρ V l1 ++ .rej i e :: tr2)).result.state = .REJECTED ∧
     (all_run (all_init n T ρ) (res_trace ρ V l1 ++ .rej i e :: tr2)).result.value = .error e) := by
  have hmid : ∀ (m : List (Fin n)), m.Nodup →
      all_run (all_init n T ρ) (res_trace ρ V m) = all_mid ρ V m.toFinset := by
    intro m hm
    rw [all_init_eq_mid V hn, all_run_res_mid V hsz m ∅ hm (by simp)]
    rw [Finset.empty_union]
  refine ⟨?_, ?_, ?_⟩
  · have hfin : l.toFinset = Finset.univ := by
      ext j
      simp [hcov j]
    rw [hmid l hl, hfin]
    simp [all_mid]
  · intro lp ls hsplit hne
    have hlp : lp.Nodup := by
      rw [hsplit] at hl
      exact hl.of_append_left
    have hnotuniv : lp.toFinset ≠ Finset.univ := by
      rcases ls with _ | ⟨j, ls⟩
      · exact absurd rfl hne
      · intro h
        have hj : j ∈ lp := by
          rw [← List.mem_toFinset, h]
          exact Finset.mem_univ j
        rw [hsplit] at hl
        rcases List.disjoint_of_nodup_append hl hj (by simp) with ⟨⟩
    rw [hmid lp hlp]
    simp [all_mid, hnotuniv]
  · have hsplit1 : all_run (all_init n T ρ) (res_trace ρ V l1 ++ .rej i e :: tr2) =
        all_run (all_step (all_mid ρ V l1.toFinset) (.rej i e)) tr2 := by
      rw [all_run, List.foldl_append]
      rw [show List.foldl all_step (all_init n T ρ) (res_trace ρ V l1) =
        all_run (all_init n T ρ) (res_trace ρ V l1) from rfl, hmid l1 h1]
      rfl
    have hnotuniv : l1.toFinset ≠ Finset.univ := by
      intro h
      apply hi
      rw [← List.mem_toFinset, h]
      exact Finset.mem_univ i
    have hstep : (all_step (all_mid ρ V l1.toFinset) (.rej i e)).result =
        { state := .REJECTED, value := .error e, on_settle := false } := by
      show (all_on_reject (all_mid ρ V l1.toFinset) e).result = _
      rw [all_on_reject]
      simp [all_mid, hnotuniv, promise.reject, promise.is_settled, rejection_value]
    have hrest := all_run_settled (all_step (all_mid ρ V l1.toFinset) (.rej i e))
      (by rw [hstep]; simp) tr2
    rw [hsplit1, hrest, hstep]
    exact ⟨rfl, rfl⟩

/-- Witness for C3 at two concrete inputs with `n = 2`. -/
theorem C3_all_tuple_identity_witness :
    ((all_run (all_init 2 (fun _ => Nat) Nat)
        (res_trace Nat (fun j => (j : Nat)) [0, 1])).result.state = .RESOLVED ∧
     (all_run (all_init 2 (fun _ => Nat) Nat)
        (res_trace Nat (fun j => (j : Nat)) [0, 1])).result.value = .value (fun j => (j : Nat))) ∧
    (∀ lp ls, [(0 : Fin 2), 1] = lp ++ ls → ls ≠ [] →
      (all_run (all_init 2 (fun _ => Nat) Nat)
        (res_trace Nat (fun j => (j : Nat)) lp)).result.state = .PENDING) ∧
    ((all_run (all_init 2 (fun _ => Nat) Nat)
        (res_trace Nat (fun j => (j : Nat)) [1] ++ .rej 0 (.user 3) :: [.res 0 0])).result.state = .REJECTED ∧
     (all_run (all_init 2 (fun _ => Nat) Nat)
        (res_trace Nat (fun j => (j : Nat)) [1] ++ .rej 0 (.user 3) :: [.res 0 0])).result.value = .error (.user 3)) :=
  C3_all_tuple_identity (fun j => (j : Nat)) (by decide) (by norm_num [SIZE_T])
    [0, 1] (by decide) (by decide) [1] (by decide) 0 (by decide) (.user 3) [.res 0 0]

end juro

namespace fuss

theorem shout_from_eq_queue :
    (q pre : List bus_handler) → shout_from (pre ++ q) pre.length = shout_queue q
  | [], pre => by
    rw [shout_from]
    simp [shout_queue]
  | h :: rest, pre => by
    have hlen : pre.length < (pre ++ h :: rest).length := by
      simp
    rw [shout_from, dif_pos hlen]
    have hget : (pre ++ h :: rest).get ⟨pre.length, hlen⟩ = h := by
      simp [List.getElem_append_right, Nat.le_refl]
    simp only [hget]
    have hre : (pre ++ h :: rest) ++ h.spawns = (pre ++ [h]) ++ (rest ++ h.spawns) := by
      simp
    have hlen2 : pre.length + 1 = (pre ++ [h]).length := by
      simp
    rw [hre, hlen2, shout_from_eq_queue (rest ++ h.spawns) (pre ++ [h]), shout_queue]
termination_by q _ => lsize q
decreasing_by
  simp only [lsize, lsize_append]
  have := lsize_spawns_lt h
  omega

theorem shout_queue_level :
    (q r : List bus_handler) → shout_queue (q ++ r) =
      q.map bus_handler.label ++ shout_queue (r ++ q.bind bus_handler.spawns)
  | [], r => by
    simp
  | h :: q, r => by
    rw [List.cons_append, shout_queue]
    rw [show (q ++ r) ++ h.spawns = q ++ (r ++ h.spawns) from by simp]
    rw [shout_queue_level q (r ++ h.spawns)]
    simp only [List.map_cons, List.cons_bind, List.cons_append]
    rw [show (r ++ h.spawns) ++ q.bind bus_handler.spawns =
      r ++ (h.spawns ++ q.bind bus_handler.spawns) from by simp]

/-- C7 counterexample: in the live-list broadcast of fuss.hpp, a single
handler (label 0) that registers a new handler (label 1) during the
broadcast leads to both being invoked by that same broadcast, contradicting
the claim that only handlers already in the sequence when the broadcast
began are invoked. -/
theorem C7_counterexample :
    shout [ .mk 0 [ .mk 1 [] ] ] = [0, 1] ∧
    shout [ .mk 0 [ .mk 1 [] ] ] ≠ [0] := by
  have h : shout [ .mk 0 [ .mk 1 [] ] ] = [0, 1] := by
    have h0 := shout_from_eq_queue [ .mk 0 [ .mk 1 [] ] ] []
    rw [show shout [ .mk 0 [ .mk 1 [] ] ] =
      shout_from ([] ++ [ .mk 0 [ .mk 1 [] ] ]) [].length from rfl, h0]
    rw [shout_queue]
    rw [show ([] ++ bus_handler.spawns (.mk 0 [ .mk 1 [] ])) = [ .mk 1 [] ] from rfl]
    rw [shout_queue]
    rw [show ([] ++ bus_handler.spawns (.mk 1 [])) = ([] : List bus_handler) from rfl]
    rw [shout_queue]
    rfl
  exact ⟨h, by simp [h]⟩

/-- C7 amended: `shout` iterates the live handler list, and `listen` appends
during-broadcast registrations at its end, so a handler registered during a
broadcast of the same message IS invoked by that same broadcast: the
broadcast invokes all handlers present when it began, in registration
order, followed by the handlers registered during the broadcast. -/
theorem C7_live_list_broadcast (hs : List bus_handler) :
    shout hs = hs.map bus_handler.label ++
      shout_queue (hs.bind bus_handler.spawns) ∧
    (∀ g ∈ hs.bind bus_handler.spawns,
      bus_handler.label g ∈ shout hs) := by
  have heq : shout hs = shout_queue hs := by
    have h0 := shout_from_eq_queue hs []
    simpa [shout] using h0
  have hlevel := shout_queue_level hs []
  simp only [List.nil_append, List.append_nil] at hlevel
  constructor
  · rw [heq, hlevel]
  · intro g hg
    rw [heq, hlevel]
    have hlevel2 := shout_queue_level (hs.bind bus_handler.spawns) []
    simp only [List.nil_append, List.append_nil] at hlevel2
    rw [hlevel2]
    refine List.mem_append_right _ (List.mem_append_left _ ?_)
    exact List.mem_map_of_mem bus_handler.label hg

end fuss

namespace fugax

theorem sorted_iff : ∀ ts : List (Nat × List Nat),
    timers_sorted ts = true ↔ List.Pairwise (fun a b => a.1 < b.1) ts
  | [] => by simp [timers_sorted]
  | [a] => by simp [timers_sorted]
  | a :: b :: rest => by
    rw [timers_sorted, Bool.and_eq_true, decide_eq_true_iff, sorted_iff (b :: rest)]
    constructor
    · rintro ⟨hab, hpair⟩
      have hb := List.pairwise_cons.mp hpair
      refine List.pairwise_cons.mpr ⟨?_, hpair⟩
      intro c hc
      rcases List.mem_cons.mp hc with hcb | hcr
      · exact hcb ▸ hab
      · exact lt_trans hab (hb.1 c hcr)
    · intro hpair
      have h1 := List.pairwise_cons.mp hpair
      exact ⟨h1.1 b (by simp), h1.2⟩

theorem mem_timer_ids {ts : List (Nat × List Nat)} {k e : Nat}
    (h : mem_timer ts k e) : e ∈ timer_ids ts := by
  obtain ⟨l, hl, he⟩ := h
  induction ts with
  | nil => simp at hl
  | cons a rest ih =>
    rcases List.mem_cons.mp hl with h1 | h2
    · subst h1
      exact List.mem_append_left _ he
    · exact List.mem_append_right _ (ih h2)

theorem timer_ids_mem {ts : List (Nat × List Nat)} {e : Nat}
    (h : e ∈ timer_ids ts) : ∃ k, mem_timer ts k e := by
  induction ts with
  | nil => simp [timer_ids] at h
  | cons a rest ih =>
    rcases List.mem_append.mp h with h1 | h2
    · exact ⟨a.1, a.2, by simp, h1⟩
    · obtain ⟨k, l, hl, he⟩ := ih h2
      exact ⟨k, l, List.mem_cons_of_mem a hl, he⟩

theorem ti_mem_new : ∀ (ts : List (Nat × List Nat)) (k id : Nat),
    mem_timer (timer_insert ts k id) k id
  | [], k, id => ⟨[id], by simp [timer_insert]⟩
  | (t, l) :: rest, k, id => by
    rw [timer_insert]
    by_cases h1 : k < t
    · rw [if_pos h1]
      exact ⟨[id], by simp⟩
    · rw [if_neg h1]
      by_cases h2 : k = t
      · rw [if_pos h2]
        subst h2
        exact ⟨l ++ [id], by simp⟩
      · rw [if_neg h2]
        obtain ⟨l', hl', hid⟩ := ti_mem_new rest k id
        exact ⟨l', List.mem_cons_of_mem _ hl', hid⟩

theorem ti_mem_mono {ts : List (Nat × List Nat)} {k' e : Nat}
    (h : mem_timer ts k' e) (k id : Nat) :
    mem_timer (timer_insert ts k id) k' e := by
  induction ts with
  | nil => simp [mem_timer] at h
  | cons a rest ih =>
    obtain ⟨t, l⟩ := a
    obtain ⟨l', hl', he⟩ := h
    rw [timer_insert]
    by_cases h1 : k < t
    · rw [if_pos h1]
      exact ⟨l', List.mem_cons_of_mem _ hl', he⟩
    · rw [if_neg h1]
      by_cases h2 : k = t
      · rw [if_pos h2]
        rcases List.mem_cons.mp hl' with hh | hh
        · rw [Prod.mk.injEq] at hh
          obtain ⟨hk', hl2⟩ := hh
          subst hk'
          rw [hl2] at he
          exact ⟨l ++ [id], by simp, List.mem_append_left _ he⟩
        · exact ⟨l', List.mem_cons_of_mem _ hh, he⟩
      · rw [if_neg h2]
        rcases List.mem_cons.mp hl' with hh | hh
        · exact ⟨l', by rw [hh]; simp, he⟩
        · obtain ⟨l'', hl'', he''⟩ := ih ⟨l', hh, he⟩
          exact ⟨l'', List.mem_cons_of_mem _ hl'', he''⟩

theorem ti_mem_inv {ts : List (Nat × List Nat)} {k id k' e : Nat}
    (h : mem_timer (timer_insert ts k id) k' e) :
    mem_timer ts k' e ∨ (e = id ∧ k' = k) := by
  induction ts with
  | nil =>
    obtain ⟨l, hl, he⟩ := h
    simp [timer_insert] at hl
    right
    rw [hl.2] at he
    simp at he
    exact ⟨he, hl.1⟩
  | cons a rest ih =>
    obtain ⟨t, l⟩ := a
    rw [timer_insert] at h
    by_cases h1 : k < t
    · rw [if_pos h1] at h
      obtain ⟨l', hl', he⟩ := h
      rcases List.mem_cons.mp hl' with hh | hh
      · rw [Prod.mk.injEq] at hh
        right
        rw [hh.2] at he
        simp at he
        exact ⟨he, hh.1⟩
      · exact Or.inl ⟨l', hh, he⟩
    · rw [if_neg h1] at h
      by_cases h2 : k = t
      · rw [if_pos h2] at h
        obtain ⟨l', hl', he⟩ := h
        rcases List.mem_cons.mp hl' with hh | hh
        · rw [Prod.mk.injEq] at hh
          rw [hh.2] at he
          rcases List.mem_append.mp he with hm | hm
          · exact Or.inl ⟨l, by rw [hh.1]; simp, hm⟩
          · simp at hm
            exact Or.inr ⟨hm, by rw [hh.1, h2]⟩
        · exact Or.inl ⟨l', List.mem_cons_of_mem _ hh, he⟩
      · rw [if_neg h2] at h
        obtain ⟨l', hl', he⟩ := h
        rcases List.mem_cons.mp hl' with hh | hh
        · exact Or.inl ⟨l', by rw [hh]; simp, he⟩
        · rcases ih ⟨l', hh, he⟩ with hm | hm
          · obtain ⟨l'', hl'', he''⟩ := hm
            exact Or.inl ⟨l'', List.mem_cons_of_mem _ hl'', he''⟩
          · exact Or.inr hm

end fugax

namespace fugax

theorem ti_keys : ∀ (ts : List (Nat × List Nat)) (k id : Nat),
    ∀ b ∈ timer_insert ts k id, b.1 = k ∨ b.1 ∈ ts.map Prod.fst
  | [], k, id => by
    intro b hb
    simp [timer_insert] at hb
    simp [hb]
  | (t, l) :: rest, k, id => by
    intro b hb
    rw [timer_insert] at hb
    by_cases h1 : k < t
    · rw [if_pos h1] at hb
      rcases List.mem_cons.mp hb with h | h
      · simp [h]
      · right
        rcases List.mem_cons.mp h with h' | h'
        · simp [h']
        · simp only [List.map_cons, List.mem_cons]
          exact Or.inr (List.mem_map_of_mem Prod.fst h')
    · rw [if_neg h1] at hb
      by_cases h2 : k = t
      · rw [if_pos h2] at hb
        rcases List.mem_cons.mp hb with h | h
        · simp [h]
        · simp only [List.map_cons, List.mem_cons]
          exact Or.inr (Or.inr (List.mem_map_of_mem Prod.fst h))
      · rw [if_neg h2] at hb
        rcases List.mem_cons.mp hb with h | h
        · simp [h]
        · rcases ti_keys rest k id b h with h' | h'
          · exact Or.inl h'
          · simp only [List.map_cons, List.mem_cons]
            exact Or.inr (Or.inr h')

theorem ti_pairwise : ∀ (ts : List (Nat × List Nat)) (k id : Nat),
    List.Pairwise (fun a b => a.1 < b.1) ts →
    List.Pairwise (fun a b => a.1 < b.1) (timer_insert ts k id)
  | [], k, id => by
    intro _
    simp [timer_insert]
  | (t, l) :: rest, k, id => by
    intro h
    obtain ⟨ha, hrest⟩ := List.pairwise_cons.mp h
    rw [timer_insert]
    by_cases h1 : k < t
    · rw [if_pos h1]
      refine List.pairwise_cons.mpr ⟨?_, h⟩
      intro b hb
      rcases List.mem_cons.mp hb with hb1 | hb2
      · rw [hb1]
        exact h1
      · exact lt_trans h1 (ha b hb2)
    · rw [if_neg h1]
      by_cases h2 : k = t
      · rw [if_pos h2]
        exact List.pairwise_cons.mpr ⟨fun b hb => ha b hb, hrest⟩
      · rw [if_neg h2]
        refine List.pairwise_cons.mpr ⟨?_, ti_pairwise rest k id hrest⟩
        intro b hb
        rcases ti_keys rest k id b hb with hk | hk
        · rw [hk]
          omega
        · obtain ⟨c, hc, hc1⟩ := List.mem_map.mp hk
          rw [← hc1]
          exact ha c hc

theorem ds_entries : ∀ (ts : List (Nat × List Nat)) (now : Nat),
    ∀ b ∈ (due_split ts now).1,
      b ∈ ts ∨ (b.1 = now ∧ b.2 = [] ∧ b.1 ∈ ts.map Prod.fst)
  | [], now => by
    intro b hb
    simp [due_split] at hb
  | (t, l) :: rest, now => by
    intro b hb
    rw [due_split] at hb
    by_cases h1 : now < t
    · rw [if_pos h1] at hb
      exact Or.inl hb
    · rw [if_neg h1] at hb
      by_cases h2 : t = now
      · simp only [if_pos h2] at hb
        rcases List.mem_cons.mp hb with h | h
        · right
          rw [h]
          simp [h2]
        · rcases ds_entries rest now b h with h' | h'
          · exact Or.inl (List.mem_cons_of_mem _ h')
          · right
            refine ⟨h'.1, h'.2.1, ?_⟩
            simp only [List.map_cons, List.mem_cons]
            exact Or.inr h'.2.2
      · simp only [if_neg h2] at hb
        rcases ds_entries rest now b hb with h' | h'
        · exact Or.inl (List.mem_cons_of_mem _ h')
        · right
          refine ⟨h'.1, h'.2.1, ?_⟩
          simp only [List.map_cons, List.mem_cons]
          exact Or.inr h'.2.2

theorem ds_pairwise : ∀ (ts : List (Nat × List Nat)) (now : Nat),
    List.Pairwise (fun a b => a.1 < b.1) ts →
    List.Pairwise (fun a b => a.1 < b.1) (due_split ts now).1
  | [], now => by
    intro _
    simp [due_split]
  | (t, l) :: rest, now => by
    intro h
    obtain ⟨ha, hrest⟩ := List.pairwise_cons.mp h
    rw [due_split]
    by_cases h1 : now < t
    · rw [if_pos h1]
      exact h
    · rw [if_neg h1]
      by_cases h2 : t = now
      · simp only [if_pos h2]
        refine List.pairwise_cons.mpr ⟨?_, ds_pairwise rest now hrest⟩
        intro b hb
        rcases ds_entries rest now b hb with h' | h'
        · exact ha b h'
        · exfalso
          obtain ⟨c, hc, hc1⟩ := List.mem_map.mp h'.2.2
          have := ha c hc
          omega
      · simp only [if_neg h2]
        exact ds_pairwise rest now hrest

theorem ds_queue_key : ∀ (ts : List (Nat × List Nat)) (now : Nat) (e : Nat),
    e ∈ (due_split ts now).2 → ∃ k l, (k, l) ∈ ts ∧ e ∈ l ∧ k ≤ now
  | [], now, e => by
    intro h
    simp [due_split] at h
  | (t, l) :: rest, now, e => by
    intro h
    rw [due_split] at h
    by_cases h1 : now < t
    · rw [if_pos h1] at h
      simp at h
    · rw [if_neg h1] at h
      have hsplit : e ∈ l ++ (due_split rest now).2 := by
        by_cases h2 : t = now
        · simpa only [if_pos h2] using h
        · simpa only [if_neg h2] using h
      rcases List.mem_append.mp hsplit with hm | hm
      · exact ⟨t, l, by simp, hm, by omega⟩
      · obtain ⟨k, l', hl', he', hk⟩ := ds_queue_key rest now e hm
        exact ⟨k, l', List.mem_cons_of_mem _ hl', he', hk⟩

theorem ds_mem_queue : ∀ (ts : List (Nat × List Nat)) (now : Nat) (k e : Nat),
    List.Pairwise (fun a b => a.1 < b.1) ts →
    mem_timer ts k e → k ≤ now → e ∈ (due_split ts now).2
  | [], now, k, e => by
    intro _ h _
    obtain ⟨l, hl, _⟩ := h
    simp at hl
  | (t, l) :: rest, now, k, e => by
    intro hp h hk
    obtain ⟨ha, hrest⟩ := List.pairwise_cons.mp hp
    obtain ⟨l', hl', he⟩ := h
    rw [due_split]
    by_cases h1 : now < t
    · exfalso
      rcases List.mem_cons.mp hl' with hh | hh
      · rw [Prod.mk.injEq] at hh
        omega
      · have := ha (k, l') hh
        simp at this
        omega
    · rw [if_neg h1]
      have hq : e ∈ l ++ (due_split rest now).2 := by
        rcases List.mem_cons.mp hl' with hh | hh
        · rw [Prod.mk.injEq] at hh
          exact List.mem_append_left _ (hh.2 ▸ he)
        · exact List.mem_append_right _
            (ds_mem_queue rest now k e hrest ⟨l', hh, he⟩ hk)
      by_cases h2 : t = now
      · simpa only [if_pos h2] using hq
      · simpa only [if_neg h2] using hq

theorem ds_mem_keep : ∀ (ts : List (Nat × List Nat)) (now : Nat) (k e : Nat),
    List.Pairwise (fun a b => a.1 < b.1) ts →
    mem_timer ts k e → now < k → mem_timer (due_split ts now).1 k e
  | [], now, k, e => by
    intro _ h _
    obtain ⟨l, hl, _⟩ := h
    simp at hl
  | (t, l) :: rest, now, k, e => by
    intro hp h hk
    obtain ⟨ha, hrest⟩ := List.pairwise_cons.mp hp
    obtain ⟨l', hl', he⟩ := h
    rw [due_split]
    by_cases h1 : now < t
    · rw [if_pos h1]
      exact ⟨l', hl', he⟩
    · rw [if_neg h1]
      have hmem : mem_timer (due_split rest now).1 k e := by
        rcases List.mem_cons.mp hl' with hh | hh
        · rw [Prod.mk.injEq] at hh
          omega
        · exact ds_mem_keep rest now k e hrest ⟨l', hh, he⟩ hk
      obtain ⟨l'', hl'', he''⟩ := hmem
      by_cases h2 : t = now
      · simp only [if_pos h2]
        exact ⟨l'', List.mem_cons_of_mem _ hl'', he''⟩
      · simp only [if_neg h2]
        exact ⟨l'', hl'', he''⟩

theorem ds_rem_mem_inv {ts : List (Nat × List Nat)} {now k e : Nat}
    (h : mem_timer (due_split ts now).1 k e) : mem_timer ts k e := by
  obtain ⟨l, hl, he⟩ := h
  rcases ds_entries ts now (k, l) hl with h' | h'
  · exact ⟨l, h', he⟩
  · exfalso
    have : l = [] := h'.2.1
    rw [this] at he
    simp at he

end fugax

namespace fugax

theorem sf_modify_ne {s : List (Nat × event)} {id id' : Nat} (f : event → event)
    (h : id' ≠ id) : store_find (store_modify s id f) id' = store_find s id' := by
  induction s with
  | nil => rfl
  | cons p rest ih =>
    rw [store_modify, List.map_cons]
    by_cases hp : p.1 = id
    · rw [if_pos hp]
      simp only [store_find]
      have h1 : ¬ p.1 = id' := by
        rw [hp]
        exact fun hh => h hh.symm
      simp only [h1, if_false]
      exact ih
    · rw [if_neg hp]
      simp only [store_find]
      by_cases h2 : p.1 = id'
      · simp only [h2, if_true]
      · simp only [h2, if_false]
        exact ih

theorem sf_modify_eq {s : List (Nat × event)} {id : Nat} (f : event → event) :
    store_find (store_modify s id f) id = (store_find s id).map f := by
  induction s with
  | nil => rfl
  | cons p rest ih =>
    rw [store_modify, List.map_cons]
    by_cases hp : p.1 = id
    · rw [if_pos hp]
      simp only [store_find, hp, if_true]
      rfl
    · rw [if_neg hp]
      simp only [store_find, hp, if_false]
      exact ih

theorem sf_append_cases {s : List (Nat × event)} {k id : Nat} {ev ev' : event}
    (h : store_find (s ++ [(k, ev)]) id = some ev') :
    store_find s id = some ev' ∨ (store_find s id = none ∧ id = k ∧ ev' = ev) := by
  induction s with
  | nil =>
    simp only [List.nil_append, store_find] at h
    by_cases hk : k = id
    · rw [if_pos hk] at h
      exact Or.inr ⟨rfl, hk.symm, (Option.some.inj h).symm⟩
    · rw [if_neg hk] at h
      exact absurd h (by simp)
  | cons p rest ih =>
    rw [List.cons_append, store_find] at h
    rw [store_find]
    by_cases hp : p.1 = id
    · rw [if_pos hp] at h ⊢
      exact Or.inl h
    · rw [if_neg hp] at h ⊢
      exact ih h

theorem sf_append_old {s : List (Nat × event)} {k id : Nat} (ev : event)
    (h : id ≠ k) : store_find (s ++ [(k, ev)]) id = store_find s id := by
  induction s with
  | nil =>
    simp only [List.nil_append, store_find]
    rw [if_neg (fun hh => h hh.symm)]
  | cons p rest ih =>
    rw [List.cons_append, store_find, store_find]
    by_cases hp : p.1 = id
    · rw [if_pos hp, if_pos hp]
    · rw [if_neg hp, if_neg hp]
      exact ih

theorem sf_append_new {s : List (Nat × event)} {k : Nat} (ev : event)
    (h : store_find s k = none) : store_find (s ++ [(k, ev)]) k = some ev := by
  induction s with
  | nil =>
    simp [store_find]
  | cons p rest ih =>
    rw [store_find] at h
    rw [List.cons_append, store_find]
    by_cases hp : p.1 = k
    · rw [if_pos hp] at h
      exact absurd h (by simp)
    · rw [if_neg hp] at h ⊢
      exact ih h

end fugax

namespace fugax

mutual

theorem cmd_closed_not_mentions (N e : Nat) (hNe : N ≤ e) :
    ∀ c : hcmd, cmd_closed N c = true → cmd_mentions e c = false
  | .invoke tag, _ => rfl
  | .cancel_self, _ => rfl
  | .cancel_ev id, h => by
    rw [cmd_closed, decide_eq_true_iff] at h
    rw [cmd_mentions, decide_eq_false_iff_not]
    omega
  | .resched_self t, _ => rfl
  | .resched_ev id t, h => by
    rw [cmd_closed, decide_eq_true_iff] at h
    rw [cmd_mentions, decide_eq_false_iff_not]
    omega
  | .sched d p body, h => by
    rw [cmd_closed] at h
    rw [cmd_mentions]
    exact cmds_closed_not_mention N e hNe body h

theorem cmds_closed_not_mention (N e : Nat) (hNe : N ≤ e) :
    ∀ cs : List hcmd, cmds_closed N cs = true → cmds_mention e cs = false
  | [], _ => rfl
  | c :: cs, h => by
    rw [cmds_closed, Bool.and_eq_true] at h
    rw [cmds_mention, cmd_closed_not_mentions N e hNe c h.1,
      cmds_closed_not_mention N e hNe cs h.2]
    rfl

end

theorem no_mention_modify {e : Nat} {s : List (Nat × event)} (i : Nat)
    (f : event → event) (hf : ∀ ev, (f ev).body = ev.body)
    (h : no_mention e s) : no_mention e (store_modify s i f) := by
  intro id ev' hid
  by_cases hii : id = i
  · subst hii
    rw [sf_modify_eq f] at hid
    cases hfind : store_find s id with
    | none => rw [hfind] at hid; simp at hid
    | some ev0 =>
      rw [hfind] at hid
      have hid2 : some (f ev0) = some ev' := hid
      have hb : ev'.body = ev0.body := by
        rw [← Option.some.inj hid2, hf]
      rw [hb]
      exact h id ev0 hfind
  · rw [sf_modify_ne f hii] at hid
    exact h id ev' hid

theorem no_mention_append {e : Nat} {s : List (Nat × event)} (k : Nat)
    (ev : event) (h : no_mention e s) (hb : cmds_mention e ev.body = false) :
    no_mention e (s ++ [(k, ev)]) := by
  intro id ev' hid
  rcases sf_append_cases hid with h1 | h1
  · exact h id ev' h1
  · rw [h1.2.2]
    exact hb

theorem exec_cmd_next_id (self : Nat) (L : event_loop) (c : hcmd) :
    L.next_id ≤ (exec_cmd self L c).1.next_id := by
  cases c with
  | invoke tag => exact le_refl _
  | cancel_self => exact le_refl _
  | cancel_ev id => exact le_refl _
  | resched_self t => exact le_refl _
  | resched_ev id t => exact le_refl _
  | sched d p body =>
    show L.next_id ≤ L.next_id + 1
    omega

theorem exec_cmds_next_id (self : Nat) :
    ∀ (cs : List hcmd) (L : event_loop),
      L.next_id ≤ (exec_cmds self cs L).1.next_id
  | [], L => le_refl _
  | c :: cs, L => by
    rw [exec_cmds]
    exact le_trans (exec_cmd_next_id self L c)
      (exec_cmds_next_id self cs (exec_cmd self L c).1)

theorem exec_cmd_store_e {self e : Nat} {L : event_loop} {c : hcmd}
    (hm : cmd_mentions e c = false) (hself : self ≠ e) (he : e < L.next_id) :
    store_find (exec_cmd self L c).1.store e = store_find L.store e := by
  cases c with
  | invoke tag => rfl
  | cancel_self =>
    simp only [exec_cmd, ev_cancel]
    exact sf_modify_ne _ (Ne.symm hself)
  | cancel_ev id =>
    rw [cmd_mentions, decide_eq_false_iff_not] at hm
    simp only [exec_cmd, ev_cancel]
    exact sf_modify_ne _ (fun hh => hm hh.symm)
  | resched_self t =>
    simp only [exec_cmd, ev_resched]
    exact sf_modify_ne _ (Ne.symm hself)
  | resched_ev id t =>
    rw [cmd_mentions, decide_eq_false_iff_not] at hm
    simp only [exec_cmd, ev_resched]
    exact sf_modify_ne _ (fun hh => hm hh.symm)
  | sched d p body =>
    simp only [exec_cmd, schedule_core]
    exact sf_append_old _ (by omega)

theorem exec_cmd_no_mention {self e : Nat} {L : event_loop} {c : hcmd}
    (hm : cmd_mentions e c = false) (hnm : no_mention e L.store) :
    no_mention e (exec_cmd self L c).1.store := by
  cases c with
  | invoke tag => exact hnm
  | cancel_self =>
    simp only [exec_cmd, ev_cancel]
    exact no_mention_modify _ _ (fun _ => rfl) hnm
  | cancel_ev id =>
    simp only [exec_cmd, ev_cancel]
    exact no_mention_modify _ _ (fun _ => rfl) hnm
  | resched_self t =>
    simp only [exec_cmd, ev_resched]
    exact no_mention_modify _ _ (fun _ => rfl) hnm
  | resched_ev id t =>
    simp only [exec_cmd, ev_resched]
    exact no_mention_modify _ _ (fun _ => rfl) hnm
  | sched d p body =>
    rw [cmd_mentions] at hm
    simp only [exec_cmd, schedule_core]
    exact no_mention_append _ _ hnm hm

theorem exec_cmd_mem_mono {k x : Nat} (self : Nat) (L : event_loop) (c : hcmd)
    (h : mem_timer L.timers k x) :
    mem_timer (exec_cmd self L c).1.timers k x := by
  cases c with
  | invoke tag => exact h
  | cancel_self => exact h
  | cancel_ev id => exact h
  | resched_self t => exact h
  | resched_ev id t => exact h
  | sched d p body =>
    simp only [exec_cmd, schedule_core]
    exact ti_mem_mono h _ _

theorem exec_cmd_mem_inv {k x : Nat} {self : Nat} {L : event_loop} {c : hcmd}
    (h : mem_timer (exec_cmd self L c).1.timers k x) :
    mem_timer L.timers k x ∨ x = L.next_id := by
  cases c with
  | invoke tag => exact Or.inl h
  | cancel_self => exact Or.inl h
  | cancel_ev id => exact Or.inl h
  | resched_self t => exact Or.inl h
  | resched_ev id t => exact Or.inl h
  | sched d p body =>
    simp only [exec_cmd, schedule_core] at h
    rcases ti_mem_inv h with h1 | h1
    · exact Or.inl h1
    · exact Or.inr h1.1

theorem exec_cmd_pairwise {self : Nat} {L : event_loop} {c : hcmd}
    (h : List.Pairwise (fun a b => a.1 < b.1) L.timers) :
    List.Pairwise (fun a b => a.1 < b.1) (exec_cmd self L c).1.timers := by
  cases c with
  | invoke tag => exact h
  | cancel_self => exact h
  | cancel_ev id => exact h
  | resched_self t => exact h
  | resched_ev id t => exact h
  | sched d p body =>
    simp only [exec_cmd, schedule_core]
    exact ti_pairwise _ _ _ h

end fugax

namespace fugax

theorem exec_cmds_store_e {self e : Nat} :
    ∀ (cs : List hcmd) (L : event_loop),
      cmds_mention e cs = false → self ≠ e → e < L.next_id →
      store_find (exec_cmds self cs L).1.store e = store_find L.store e
  | [], L, _, _, _ => rfl
  | c :: cs, L, hm, hself, he => by
    rw [cmds_mention, Bool.or_eq_false_iff] at hm
    show store_find (exec_cmds self cs (exec_cmd self L c).1).1.store e = _
    rw [exec_cmds_store_e cs (exec_cmd self L c).1 hm.2 hself
        (lt_of_lt_of_le he (exec_cmd_next_id self L c)),
      exec_cmd_store_e hm.1 hself he]

theorem exec_cmds_no_mention {self e : Nat} :
    ∀ (cs : List hcmd) (L : event_loop),
      cmds_mention e cs = false → no_mention e L.store →
      no_mention e (exec_cmds self cs L).1.store
  | [], L, _, h => h
  | c :: cs, L, hm, h => by
    rw [cmds_mention, Bool.or_eq_false_iff] at hm
    show no_mention e (exec_cmds self cs (exec_cmd self L c).1).1.store
    exact exec_cmds_no_mention cs (exec_cmd self L c).1 hm.2
      (exec_cmd_no_mention hm.1 h)

theorem exec_cmds_mem_mono {k x : Nat} (self : Nat) :
    ∀ (cs : List hcmd) (L : event_loop),
      mem_timer L.timers k x →
      mem_timer (exec_cmds self cs L).1.timers k x
  | [], L, h => h
  | c :: cs, L, h => by
    show mem_timer (exec_cmds self cs (exec_cmd self L c).1).1.timers k x
    exact exec_cmds_mem_mono self cs (exec_cmd self L c).1
      (exec_cmd_mem_mono self L c h)

theorem exec_cmds_mem_inv {k x : Nat} {self : Nat} :
    ∀ (cs : List hcmd) (L : event_loop),
      mem_timer (exec_cmds self cs L).1.timers k x →
      mem_timer L.timers k x ∨ L.next_id ≤ x
  | [], L, h => Or.inl h
  | c :: cs, L, h => by
    have h1 : mem_timer (exec_cmds self cs (exec_cmd self L c).1).1.timers k x := h
    rcases exec_cmds_mem_inv cs (exec_cmd self L c).1 h1 with h2 | h2
    · rcases exec_cmd_mem_inv h2 with h3 | h3
      · exact Or.inl h3
      · exact Or.inr (le_of_eq h3.symm)
    · exact Or.inr (le_trans (exec_cmd_next_id self L c) h2)

theorem exec_cmds_pairwise {self : Nat} :
    ∀ (cs : List hcmd) (L : event_loop),
      List.Pairwise (fun a b => a.1 < b.1) L.timers →
      List.Pairwise (fun a b => a.1 < b.1) (exec_cmds self cs L).1.timers
  | [], _, h => h
  | c :: cs, L, h => by
    show List.Pairwise _ (exec_cmds self cs (exec_cmd self L c).1).1.timers
    exact exec_cmds_pairwise cs (exec_cmd self L c).1 (exec_cmd_pairwise h)

end fugax

namespace fugax

theorem first_split {q : List Nat} {a : Nat} (h : a ∈ q) :
    ∃ q1 q2, q = q1 ++ a :: q2 ∧ a ∉ q1 := by
  induction q with
  | nil => simp at h
  | cons b rest ih =>
    by_cases hb : a = b
    · exact ⟨[], rest, by rw [hb]; rfl, by simp⟩
    · have hrest : a ∈ rest := by
        rcases List.mem_cons.mp h with h1 | h1
        · exact absurd h1 hb
        · exact h1
      obtain ⟨q1, q2, heq, hnot⟩ := ih hrest
      exact ⟨b :: q1, q2, by rw [List.cons_append, heq], by
        simp only [List.mem_cons]
        push_neg
        exact ⟨hb, hnot⟩⟩

theorem sf_none_of_lt {s : List (Nat × event)} {N : Nat}
    (h : ∀ p ∈ s, p.1 < N) : store_find s N = none := by
  induction s with
  | nil => rfl
  | cons p rest ih =>
    rw [store_find]
    have hp := h p (by simp)
    rw [if_neg (by omega)]
    exact ih fun p hp => h p (List.mem_cons_of_mem _ hp)

theorem sf_append_of_some {s t : List (Nat × event)} {e : Nat} {ev : event}
    (h : store_find s e = some ev) : store_find (s ++ t) e = some ev := by
  induction s with
  | nil => rw [store_find] at h; exact absurd h (by simp)
  | cons p rest ih =>
    rw [store_find] at h
    rw [List.cons_append, store_find]
    by_cases hp : p.1 = e
    · rw [if_pos hp] at h ⊢
      exact h
    · rw [if_neg hp] at h ⊢
      exact ih h

theorem exec_cmd_ids_lt {self : Nat} {L : event_loop} {c : hcmd}
    (h : ids_lt L) : ids_lt (exec_cmd self L c).1 := by
  cases c with
  | invoke tag => exact h
  | cancel_self => exact h
  | cancel_ev id => exact h
  | resched_self t => exact h
  | resched_ev id t => exact h
  | sched d p body =>
    intro x hx
    simp only [exec_cmd, schedule_core] at hx ⊢
    obtain ⟨k, hk⟩ := timer_ids_mem hx
    rcases ti_mem_inv hk with h1 | h1
    · exact lt_trans (h x (mem_timer_ids h1)) (by omega)
    · omega

theorem exec_cmds_ids_lt {self : Nat} :
    ∀ (cs : List hcmd) (L : event_loop),
      ids_lt L → ids_lt (exec_cmds self cs L).1
  | [], _, h => h
  | c :: cs, L, h => by
    show ids_lt (exec_cmds self cs (exec_cmd self L c).1).1
    exact exec_cmds_ids_lt cs _ (exec_cmd_ids_lt h)

theorem pq_fired_sub (now : Nat) :
    ∀ (q : List Nat) (L : event_loop) (x : Nat),
      x ∈ (process_queue now q L).fired → x ∈ q
  | [], L, x, h => by
    simp only [process_queue] at h
    simp at h
  | id :: rest, L, x, h => by
    rw [process_queue] at h
    cases hfind : store_find L.store id with
    | none =>
      simp only [hfind] at h
      exact List.mem_cons_of_mem _ (pq_fired_sub now rest L x h)
    | some ev =>
      simp only [hfind] at h
      by_cases hc : ev.cancelled = true
      · rw [if_pos hc] at h
        exact List.mem_cons_of_mem _ (pq_fired_sub now rest L x h)
      · rw [if_neg hc] at h
        by_cases hd : ev.due_time ≤ now
        · rw [if_pos hd] at h
          simp only [List.mem_cons] at h ⊢
          rcases h with h1 | h1
          · exact Or.inl h1
          · exact Or.inr (pq_fired_sub now rest _ x h1)
        · rw [if_neg hd] at h
          exact List.mem_cons_of_mem _ (pq_fired_sub now rest _ x h)

theorem pq_mem_mono (now : Nat) :
    ∀ (q : List Nat) (L : event_loop) (k x : Nat),
      mem_timer L.timers k x →
      mem_timer (process_queue now q L).loop.timers k x
  | [], L, k, x, h => h
  | id :: rest, L, k, x, h => by
    rw [process_queue]
    cases hfind : store_find L.store id with
    | none =>
      simp only [hfind]
      exact pq_mem_mono now rest L k x h
    | some ev =>
      simp only [hfind]
      by_cases hc : ev.cancelled = true
      · rw [if_pos hc]
        exact pq_mem_mono now rest L k x h
      · rw [if_neg hc]
        by_cases hd : ev.due_time ≤ now
        · rw [if_pos hd]
          by_cases hr : ev.recurring = true
          · simp only [if_pos hr]
            exact pq_mem_mono now rest _ k x
              (ti_mem_mono (exec_cmds_mem_mono id ev.body L h) _ _)
          · simp only [if_neg hr]
            exact pq_mem_mono now rest _ k x (exec_cmds_mem_mono id ev.body L h)
        · rw [if_neg hd]
          exact pq_mem_mono now rest _ k x (ti_mem_mono h _ _)

theorem pq_next_id (now : Nat) :
    ∀ (q : List Nat) (L : event_loop),
      L.next_id ≤ (process_queue now q L).loop.next_id
  | [], L => le_refl _
  | id :: rest, L => by
    rw [process_queue]
    cases hfind : store_find L.store id with
    | none =>
      simp only [hfind]
      exact pq_next_id now rest L
    | some ev =>
      simp only [hfind]
      by_cases hc : ev.cancelled = true
      · rw [if_pos hc]
        exact pq_next_id now rest L
      · rw [if_neg hc]
        by_cases hd : ev.due_time ≤ now
        · rw [if_pos hd]
          by_cases hr : ev.recurring = true
          · simp only [if_pos hr]
            exact le_trans (exec_cmds_next_id id ev.body L)
              (pq_next_id now rest
                { timers := timer_insert (exec_cmds id ev.body L).1.timers
                    ((now + ev.interval) % U32) id,
                  store := (exec_cmds id ev.body L).1.store,
                  counter := (exec_cmds id ev.body L).1.counter,
                  next_id := (exec_cmds id ev.body L).1.next_id })
          · simp only [if_neg hr]
            exact le_trans (exec_cmds_next_id id ev.body L)
              (pq_next_id now rest (exec_cmds id ev.body L).1)
        · rw [if_neg hd]
          exact pq_next_id now rest
            { timers := timer_insert L.timers ev.due_time id, store := L.store,
              counter := L.counter, next_id := L.next_id }

end fugax

namespace fugax

theorem exec_cmd_keeps_cancelled {self e : Nat} {L : event_loop} (c : hcmd)
    {ev : event} (h : store_find L.store e = some ev)
    (hc : ev.cancelled = true) :
    ∃ ev', store_find (exec_cmd self L c).1.store e = some ev' ∧
      ev'.cancelled = true := by
  have hmod : ∀ (i : Nat) (f : event → event),
      (∀ ev0, ev0.cancelled = true → (f ev0).cancelled = true) →
      ∃ ev', store_find (store_modify L.store i f) e = some ev' ∧
        ev'.cancelled = true := by
    intro i f hf
    by_cases hie : e = i
    · subst hie
      refine ⟨f ev, ?_, hf ev hc⟩
      rw [sf_modify_eq f, h]
      rfl
    · refine ⟨ev, ?_, hc⟩
      rw [sf_modify_ne f hie]
      exact h
  cases c with
  | invoke tag => exact ⟨ev, h, hc⟩
  | cancel_self =>
    exact hmod self (fun ev0 => { ev0 with cancelled := true }) fun _ _ => rfl
  | cancel_ev id =>
    exact hmod id (fun ev0 => { ev0 with cancelled := true }) fun _ _ => rfl
  | resched_self t =>
    exact hmod self (fun ev0 => { ev0 with due_time := t }) fun _ h0 => h0
  | resched_ev id t =>
    exact hmod id (fun ev0 => { ev0 with due_time := t }) fun _ h0 => h0
  | sched d p body =>
    refine ⟨ev, ?_, hc⟩
    show store_find (L.store ++ [(L.next_id, _)]) e = some ev
    exact sf_append_of_some h

theorem exec_cmds_keeps_cancelled {self e : Nat} :
    ∀ (cs : List hcmd) (L : event_loop) {ev : event},
      store_find L.store e = some ev → ev.cancelled = true →
      ∃ ev', store_find (exec_cmds self cs L).1.store e = some ev' ∧
        ev'.cancelled = true
  | [], L, ev, h, hc => ⟨ev, h, hc⟩
  | c :: cs, L, ev, h, hc => by
    obtain ⟨ev1, h1, hc1⟩ := @exec_cmd_keeps_cancelled self e L c ev h hc
    show ∃ ev', store_find (exec_cmds self cs (exec_cmd self L c).1).1.store e =
      some ev' ∧ ev'.cancelled = true
    exact exec_cmds_keeps_cancelled cs (exec_cmd self L c).1 h1 hc1

theorem exec_cmd_keeps_some {self e : Nat} {L : event_loop} (c : hcmd)
    {ev : event} (h : store_find L.store e = some ev) :
    ∃ ev', store_find (exec_cmd self L c).1.store e = some ev' := by
  have hmod : ∀ (i : Nat) (f : event → event),
      ∃ ev', store_find (store_modify L.store i f) e = some ev' := by
    intro i f
    by_cases hie : e = i
    · subst hie
      refine ⟨f ev, ?_⟩
      rw [sf_modify_eq f, h]
      rfl
    · refine ⟨ev, ?_⟩
      rw [sf_modify_ne f hie]
      exact h
  cases c with
  | invoke tag => exact ⟨ev, h⟩
  | cancel_self => exact hmod self (fun ev0 => { ev0 with cancelled := true })
  | cancel_ev id => exact hmod id (fun ev0 => { ev0 with cancelled := true })
  | resched_self t => exact hmod self (fun ev0 => { ev0 with due_time := t })
  | resched_ev id t => exact hmod id (fun ev0 => { ev0 with due_time := t })
  | sched d p body =>
    refine ⟨ev, ?_⟩
    show store_find (L.store ++ [(L.next_id, _)]) e = some ev
    exact sf_append_of_some h

theorem exec_cmds_cancel_self {self : Nat} :
    ∀ (cs : List hcmd) (L : event_loop) {ev : event},
      store_find L.store self = some ev → hcmd.cancel_self ∈ cs →
      ∃ ev', store_find (exec_cmds self cs L).1.store self = some ev' ∧
        ev'.cancelled = true
  | [], _, _, _, hmem => absurd hmem (by simp)
  | c :: cs, L, ev, h, hmem => by
    show ∃ ev', store_find (exec_cmds self cs (exec_cmd self L c).1).1.store self =
      some ev' ∧ ev'.cancelled = true
    by_cases hcs : c = hcmd.cancel_self
    · subst hcs
      have h1 : store_find (exec_cmd self L hcmd.cancel_self).1.store self =
          some { ev with cancelled := true } := by
        show store_find (store_modify L.store self
          (fun ev0 => { ev0 with cancelled := true })) self = _
        rw [sf_modify_eq _, h]
        rfl
      exact exec_cmds_keeps_cancelled cs (exec_cmd self L hcmd.cancel_self).1 h1 rfl
    · have hmem2 : hcmd.cancel_self ∈ cs := by
        rcases List.mem_cons.mp hmem with h1 | h1
        · exact absurd h1.symm hcs
        · exact h1
      obtain ⟨ev1, h1⟩ := @exec_cmd_keeps_some self self L c ev h
      exact exec_cmds_cancel_self cs (exec_cmd self L c).1 h1 hmem2

theorem pq_keeps_cancelled (now e : Nat) :
    ∀ (q : List Nat) (L : event_loop) (ev : event),
      store_find L.store e = some ev → ev.cancelled = true →
      e ∉ (process_queue now q L).fired ∧
      ∃ ev', store_find (process_queue now q L).loop.store e = some ev' ∧
        ev'.cancelled = true
  | [], L, ev, h, hc => ⟨by simp [process_queue], ev, h, hc⟩
  | id :: q, L, ev, h, hc => by
    rw [process_queue]
    cases hfind : store_find L.store id with
    | none =>
      simp only [hfind]
      obtain ⟨hf, hex⟩ := pq_keeps_cancelled now e q L ev h hc
      refine ⟨?_, hex⟩
      intro hmem
      by_cases hide : e = id
      · subst hide
        rw [h] at hfind
        exact absurd hfind (by simp)
      · exact hf hmem
    | some ev2 =>
      simp only [hfind]
      by_cases hc2 : ev2.cancelled = true
      · rw [if_pos hc2]
        obtain ⟨hf, hex⟩ := pq_keeps_cancelled now e q L ev h hc
        exact ⟨hf, hex⟩
      · rw [if_neg hc2]
        have hide : e ≠ id := by
          intro hh
          subst hh
          rw [h] at hfind
          have := Option.some.inj hfind
          rw [← this] at hc2
          exact hc2 hc
        by_cases hd : ev2.due_time ≤ now
        · rw [if_pos hd]
          obtain ⟨ev1, h1, hc1⟩ :=
            @exec_cmds_keeps_cancelled id e ev2.body L ev h hc
          by_cases hr : ev2.recurring = true
          · simp only [if_pos hr]
            obtain ⟨hf, hex⟩ := pq_keeps_cancelled now e q
              { timers := timer_insert (exec_cmds id ev2.body L).1.timers
                  ((now + ev2.interval) % U32) id,
                store := (exec_cmds id ev2.body L).1.store,
                counter := (exec_cmds id ev2.body L).1.counter,
                next_id := (exec_cmds id ev2.body L).1.next_id }
              ev1 h1 hc1
            refine ⟨?_, hex⟩
            intro hmem
            rcases List.mem_cons.mp hmem with h2 | h2
            · exact hide h2
            · exact hf h2
          · simp only [if_neg hr]
            obtain ⟨hf, hex⟩ := pq_keeps_cancelled now e q
              (exec_cmds id ev2.body L).1 ev1 h1 hc1
            refine ⟨?_, hex⟩
            intro hmem
            rcases List.mem_cons.mp hmem with h2 | h2
            · exact hide h2
            · exact hf h2
        · rw [if_neg hd]
          exact pq_keeps_cancelled now e q
            { timers := timer_insert L.timers ev2.due_time id,
              store := L.store, counter := L.counter, next_id := L.next_id }
            ev h hc

theorem process_keeps_cancelled (M : event_loop) (t e : Nat) (ev : event)
    (h : store_find M.store e = some ev) (hc : ev.cancelled = true) :
    e ∉ (process M t).fired ∧
    ∃ ev', store_find (process M t).loop.store e = some ev' ∧
      ev'.cancelled = true := by
  have hres := pq_keeps_cancelled t e (due_split M.timers t).2
    { timers := (due_split M.timers t).1, store := M.store,
      counter := M.counter, next_id := M.next_id } ev h hc
  exact hres

theorem never_fires_again (e : Nat) :
    ∀ (ts : List Nat) (M : event_loop) (ev : event),
      store_find M.store e = some ev → ev.cancelled = true →
      ∀ t', e ∉ (process (process_many M ts) t').fired
  | [], M, ev, h, hc, t' => (process_keeps_cancelled M t' e ev h hc).1
  | t :: ts, M, ev, h, hc, t' => by
    obtain ⟨_, ev', h', hc'⟩ := process_keeps_cancelled M t e ev h hc
    show e ∉ (process (process_many (process M t).loop ts) t').fired
    exact never_fires_again e ts (process M t).loop ev' h' hc' t'

theorem pq_fires (now e : Nat) :
    ∀ (q1 q2 : List Nat) (L : event_loop) (ev : event),
      store_find L.store e = some ev → ev.cancelled = false →
      ev.due_time ≤ now → e ∉ q1 → e < L.next_id → no_mention e L.store →
      e ∈ (process_queue now (q1 ++ e :: q2) L).fired ∧
      (ev.recurring = true →
        mem_timer (process_queue now (q1 ++ e :: q2) L).loop.timers
          ((now + ev.interval) % U32) e) ∧
      (hcmd.cancel_self ∈ ev.body →
        ∃ ev', store_find (process_queue now (q1 ++ e :: q2) L).loop.store e =
          some ev' ∧ ev'.cancelled = true)
  | [], q2, L, ev, hfind, hc, hd, _, _, _ => by
    rw [List.nil_append, process_queue]
    simp only [hfind]
    rw [if_neg (by rw [hc]; simp), if_pos hd]
    refine ⟨by simp, ?_, ?_⟩
    · intro hr
      simp only [if_pos hr]
      exact pq_mem_mono now q2 _ _ _ (ti_mem_new _ _ _)
    · intro hcs
      obtain ⟨ev1, h1, hc1⟩ := exec_cmds_cancel_self ev.body L hfind hcs
      by_cases hr : ev.recurring = true
      · simp only [if_pos hr]
        have h2 : store_find
            ({ timers := timer_insert (exec_cmds e ev.body L).1.timers
                ((now + ev.interval) % U32) e,
               store := (exec_cmds e ev.body L).1.store,
               counter := (exec_cmds e ev.body L).1.counter,
               next_id := (exec_cmds e ev.body L).1.next_id } : event_loop).store e =
            some ev1 := h1
        exact (pq_keeps_cancelled now e q2 _ ev1 h2 hc1).2
      · simp only [if_neg hr]
        exact (pq_keeps_cancelled now e q2 _ ev1 h1 hc1).2
  | id :: q1, q2, L, ev, hfind, hc, hd, hq1, he, hnm => by
    have hide : id ≠ e := by
      intro hh
      exact hq1 (hh ▸ List.mem_cons_self id q1)
    have hq1' : e ∉ q1 := fun hh => hq1 (List.mem_cons_of_mem _ hh)
    rw [List.cons_append, process_queue]
    cases hfind2 : store_find L.store id with
    | none =>
      simp only [hfind2]
      exact pq_fires now e q1 q2 L ev hfind hc hd hq1' he hnm
    | some ev2 =>
      simp only [hfind2]
      by_cases hc2 : ev2.cancelled = true
      · rw [if_pos hc2]
        exact pq_fires now e q1 q2 L ev hfind hc hd hq1' he hnm
      · rw [if_neg hc2]
        by_cases hd2 : ev2.due_time ≤ now
        · rw [if_pos hd2]
          have hm2 : cmds_mention e ev2.body = false := hnm id ev2 hfind2
          have hsf : store_find (exec_cmds id ev2.body L).1.store e =
              store_find L.store e :=
            exec_cmds_store_e ev2.body L hm2 hide he
          have hfind3 : store_find (exec_cmds id ev2.body L).1.store e = some ev := by
            rw [hsf, hfind]
          have hnm2 : no_mention e (exec_cmds id ev2.body L).1.store :=
            exec_cmds_no_mention ev2.body L hm2 hnm
          have he2 : e < (exec_cmds id ev2.body L).1.next_id :=
            lt_of_lt_of_le he (exec_cmds_next_id id ev2.body L)
          by_cases hr2 : ev2.recurring = true
          · simp only [if_pos hr2]
            have hres := pq_fires now e q1 q2
              { timers := timer_insert (exec_cmds id ev2.body L).1.timers
                  ((now + ev2.interval) % U32) id,
                store := (exec_cmds id ev2.body L).1.store,
                counter := (exec_cmds id ev2.body L).1.counter,
                next_id := (exec_cmds id ev2.body L).1.next_id }
              ev hfind3 hc hd hq1' he2 hnm2
            exact ⟨List.mem_cons.mpr (Or.inr hres.1), hres.2.1, hres.2.2⟩
          · simp only [if_neg hr2]
            have hres := pq_fires now e q1 q2 (exec_cmds id ev2.body L).1 ev
              hfind3 hc hd hq1' he2 hnm2
            exact ⟨List.mem_cons.mpr (Or.inr hres.1), hres.2.1, hres.2.2⟩
        · rw [if_neg hd2]
          exact pq_fires now e q1 q2
            { timers := timer_insert L.timers ev2.due_time id,
              store := L.store, counter := L.counter, next_id := L.next_id }
            ev hfind hc hd hq1' he hnm

theorem pq_preserve_e (now e : Nat) :
    ∀ (q : List Nat) (L : event_loop),
      e ∉ q → (∀ x ∈ q, x < L.next_id) → e < L.next_id → no_mention e L.store →
      (store_find (process_queue now q L).loop.store e = store_find L.store e) ∧
      no_mention e (process_queue now q L).loop.store ∧
      (∀ k, mem_timer L.timers k e →
        mem_timer (process_queue now q L).loop.timers k e) ∧
      (∀ k, mem_timer (process_queue now q L).loop.timers k e →
        mem_timer L.timers k e) ∧
      (List.Pairwise (fun a b => a.1 < b.1) L.timers →
        List.Pairwise (fun a b => a.1 < b.1) (process_queue now q L).loop.timers) ∧
      (ids_lt L → ids_lt (process_queue now q L).loop)
  | [], L, _, _, _, hnm => by
    exact ⟨rfl, hnm, fun k h => h, fun k h => h, fun h => h, fun h => h⟩
  | id :: q, L, hq, hlt, he, hnm => by
    have hide : id ≠ e := by
      intro hh
      exact hq (hh ▸ List.mem_cons_self id q)
    have hq' : e ∉ q := fun hh => hq (List.mem_cons_of_mem _ hh)
    have hlt' : ∀ x ∈ q, x < L.next_id := fun x hx => hlt x (List.mem_cons_of_mem _ hx)
    have hidlt : id < L.next_id := hlt id (List.mem_cons_self id q)
    rw [process_queue]
    cases hfind : store_find L.store id with
    | none =>
      simp only [hfind]
      exact pq_preserve_e now e q L hq' hlt' he hnm
    | some ev =>
      simp only [hfind]
      by_cases hc : ev.cancelled = true
      · rw [if_pos hc]
        exact pq_preserve_e now e q L hq' hlt' he hnm
      · rw [if_neg hc]
        by_cases hd : ev.due_time ≤ now
        · rw [if_pos hd]
          have hm2 : cmds_mention e ev.body = false := hnm id ev hfind
          have hsf : store_find (exec_cmds id ev.body L).1.store e =
              store_find L.store e := exec_cmds_store_e ev.body L hm2 hide he
          have hnm2 : no_mention e (exec_cmds id ev.body L).1.store :=
            exec_cmds_no_mention ev.body L hm2 hnm
          have hni := exec_cmds_next_id id ev.body L
          have he2 : e < (exec_cmds id ev.body L).1.next_id := lt_of_lt_of_le he hni
          by_cases hr : ev.recurring = true
          · simp only [if_pos hr]
            have hrec := pq_preserve_e now e q
              { timers := timer_insert (exec_cmds id ev.body L).1.timers
                  ((now + ev.interval) % U32) id,
                store := (exec_cmds id ev.body L).1.store,
                counter := (exec_cmds id ev.body L).1.counter,
                next_id := (exec_cmds id ev.body L).1.next_id }
              hq' (fun x hx => lt_of_lt_of_le (hlt' x hx) hni) he2 hnm2
            refine ⟨by rw [hrec.1, hsf], hrec.2.1, ?_, ?_, ?_, ?_⟩
            · intro k hk
              exact hrec.2.2.1 k
                (ti_mem_mono (exec_cmds_mem_mono id ev.body L hk) _ _)
            · intro k hk
              have h1 := hrec.2.2.2.1 k hk
              rcases ti_mem_inv h1 with h2 | h2
              · rcases exec_cmds_mem_inv ev.body L h2 with h3 | h3
                · exact h3
                · omega
              · exact absurd h2.1 (Ne.symm hide)
            · intro hp
              exact hrec.2.2.2.2.1
                (ti_pairwise _ _ _ (exec_cmds_pairwise ev.body L hp))
            · intro hids
              refine hrec.2.2.2.2.2 ?_
              intro x hx
              obtain ⟨k, hk⟩ := timer_ids_mem hx
              rcases ti_mem_inv hk with h2 | h2
              · exact exec_cmds_ids_lt ev.body L hids x (mem_timer_ids h2)
              · rw [h2.1]
                exact lt_of_lt_of_le hidlt hni
          · simp only [if_neg hr]
            have hrec := pq_preserve_e now e q (exec_cmds id ev.body L).1
              hq' (fun x hx => lt_of_lt_of_le (hlt' x hx) hni) he2 hnm2
            refine ⟨by rw [hrec.1, hsf], hrec.2.1, ?_, ?_, ?_, ?_⟩
            · intro k hk
              exact hrec.2.2.1 k (exec_cmds_mem_mono id ev.body L hk)
            · intro k hk
              have h1 := hrec.2.2.2.1 k hk
              rcases exec_cmds_mem_inv ev.body L h1 with h3 | h3
              · exact h3
              · omega
            · intro hp
              exact hrec.2.2.2.2.1 (exec_cmds_pairwise ev.body L hp)
            · intro hids
              exact hrec.2.2.2.2.2 (exec_cmds_ids_lt ev.body L hids)
        · rw [if_neg hd]
          have hrec := pq_preserve_e now e q
            { timers := timer_insert L.timers ev.due_time id,
              store := L.store, counter := L.counter, next_id := L.next_id }
            hq' hlt' he hnm
          refine ⟨hrec.1, hrec.2.1, ?_, ?_, ?_, ?_⟩
          · intro k hk
            exact hrec.2.2.1 k (ti_mem_mono hk _ _)
          · intro k hk
            have h1 := hrec.2.2.2.1 k hk
            rcases ti_mem_inv h1 with h2 | h2
            · exact h2
            · exact absurd h2.1 (Ne.symm hide)
          · intro hp
            exact hrec.2.2.2.2.1 (ti_pairwise _ _ _ hp)
          · intro hids
            refine hrec.2.2.2.2.2 ?_
            intro x hx
            obtain ⟨k, hk⟩ := timer_ids_mem hx
            rcases ti_mem_inv hk with h2 | h2
            · exact hids x (mem_timer_ids h2)
            · rw [h2.1]
              exact hidlt

theorem exec_cmd_fresh {self e : Nat} {L : event_loop} {c : hcmd}
    (hm : cmd_mentions e c = false) (hself : self ≠ e)
    (hfo : fresh_ok e L) : fresh_ok e (exec_cmd self L c).1 := by
  obtain ⟨hsort, hnm, hbr⟩ := hfo
  have hmodify : ∀ (i : Nat) (f : event → event), i ≠ e →
      (∀ ev, (f ev).body = ev.body) →
      fresh_ok e { timers := L.timers, store := store_modify L.store i f,
                   counter := L.counter, next_id := L.next_id } := by
    intro i f hie hf
    refine ⟨hsort, no_mention_modify i f hf hnm, ?_⟩
    rcases hbr with h1 | h1
    · refine Or.inl ⟨h1.1, ?_, h1.2.2⟩
      show store_find (store_modify L.store i f) e = none
      rw [sf_modify_ne f (Ne.symm hie)]
      exact h1.2.1
    · obtain ⟨hlt, ev, hfind, hcanc, hmem, honly⟩ := h1
      refine Or.inr ⟨hlt, ev, ?_, hcanc, hmem, honly⟩
      show store_find (store_modify L.store i f) e = some ev
      rw [sf_modify_ne f (Ne.symm hie)]
      exact hfind
  cases c with
  | invoke tag => exact ⟨hsort, hnm, hbr⟩
  | cancel_self =>
    exact hmodify self (fun ev => { ev with cancelled := true }) hself fun _ => rfl
  | cancel_ev id =>
    rw [cmd_mentions, decide_eq_false_iff_not] at hm
    exact hmodify id (fun ev => { ev with cancelled := true }) hm fun _ => rfl
  | resched_self t =>
    exact hmodify self (fun ev => { ev with due_time := t }) hself fun _ => rfl
  | resched_ev id t =>
    rw [cmd_mentions, decide_eq_false_iff_not] at hm
    exact hmodify id (fun ev => { ev with due_time := t }) hm fun _ => rfl
  | sched d p body =>
    rw [cmd_mentions] at hm
    simp only [exec_cmd, schedule_core]
    refine ⟨?_, ?_, ?_⟩
    · exact (sorted_iff _).mpr (ti_pairwise _ _ _ ((sorted_iff _).mp hsort))
    · exact no_mention_append _ _ hnm hm
    · by_cases heq : e = L.next_id
      · rcases hbr with h1 | h1
        swap
        · exact absurd h1.1 (by omega)
        · subst heq
          refine Or.inr ⟨show L.next_id < L.next_id + 1 by omega, _,
            sf_append_new _ h1.2.1, rfl, ?_, ?_⟩
          · exact ti_mem_new _ _ _
          · intro k' l' hmem' he'
            rcases ti_mem_inv ⟨l', hmem', he'⟩ with h2 | h2
            · exact absurd h2 (h1.2.2 k')
            · exact h2.2
      · rcases hbr with h1 | h1
        · refine Or.inl ⟨show L.next_id + 1 ≤ e by omega, ?_, ?_⟩
          · show store_find (L.store ++ [(L.next_id, _)]) e = none
            rw [sf_append_old _ heq]
            exact h1.2.1
          · intro k hk
            rcases ti_mem_inv hk with h2 | h2
            · exact h1.2.2 k h2
            · exact heq h2.1
        · obtain ⟨hlt, ev, hfind, hcanc, hmem, honly⟩ := h1
          refine Or.inr ⟨show e < L.next_id + 1 by omega, ev, ?_, hcanc,
            ti_mem_mono hmem _ _, ?_⟩
          · show store_find (L.store ++ [(L.next_id, _)]) e = some ev
            rw [sf_append_old _ heq]
            exact hfind
          · intro k' l' hmem' he'
            rcases ti_mem_inv ⟨l', hmem', he'⟩ with h2 | h2
            · obtain ⟨l'', hl'', he''⟩ := h2
              exact honly k' l'' hl'' he''
            · exact absurd h2.1 heq

theorem exec_cmds_fresh {self e : Nat} :
    ∀ (cs : List hcmd) (L : event_loop),
      cmds_mention e cs = false → self ≠ e →
      fresh_ok e L → fresh_ok e (exec_cmds self cs L).1
  | [], _, _, _, h => h
  | c :: cs, L, hm, hself, h => by
    rw [cmds_mention, Bool.or_eq_false_iff] at hm
    show fresh_ok e (exec_cmds self cs (exec_cmd self L c).1).1
    exact exec_cmds_fresh cs (exec_cmd self L c).1 hm.2 hself
      (exec_cmd_fresh hm.1 hself h)

theorem fresh_ok_timer_insert {e id k : Nat} {L : event_loop}
    (hfo : fresh_ok e L) (hne : id ≠ e) :
    fresh_ok e { timers := timer_insert L.timers k id, store := L.store,
                 counter := L.counter, next_id := L.next_id } := by
  obtain ⟨hsort, hnm, hbr⟩ := hfo
  refine ⟨(sorted_iff _).mpr (ti_pairwise _ _ _ ((sorted_iff _).mp hsort)), hnm, ?_⟩
  rcases hbr with h1 | h1
  · refine Or.inl ⟨h1.1, h1.2.1, ?_⟩
    intro k' hk'
    rcases ti_mem_inv hk' with h2 | h2
    · exact h1.2.2 k' h2
    · exact hne h2.1.symm
  · obtain ⟨hlt, ev, hfind, hcanc, hmem, honly⟩ := h1
    refine Or.inr ⟨hlt, ev, hfind, hcanc, ti_mem_mono hmem _ _, ?_⟩
    intro k' l' hmem' he'
    rcases ti_mem_inv ⟨l', hmem', he'⟩ with h2 | h2
    · obtain ⟨l'', hl'', he''⟩ := h2
      exact honly k' l'' hl'' he''
    · exact absurd h2.1.symm hne

theorem pq_fresh (now e N0 : Nat) :
    ∀ (q : List Nat) (L : event_loop),
      (∀ x ∈ q, x < N0) → N0 ≤ L.next_id → N0 ≤ e → ids_lt L →
      fresh_ok e L →
      fresh_ok e (process_queue now q L).loop ∧
      ids_lt (process_queue now q L).loop ∧
      N0 ≤ (process_queue now q L).loop.next_id
  | [], L, _, hN0, _, hids, hfo => ⟨hfo, hids, hN0⟩
  | id :: q, L, hq, hN0, he, hids, hfo => by
    have hidN : id < N0 := hq id (List.mem_cons_self id q)
    have hide : id ≠ e := by omega
    have hq' : ∀ x ∈ q, x < N0 := fun x hx => hq x (List.mem_cons_of_mem _ hx)
    have hidlt : id < L.next_id := by omega
    rw [process_queue]
    cases hfind : store_find L.store id with
    | none =>
      simp only [hfind]
      exact pq_fresh now e N0 q L hq' hN0 he hids hfo
    | some ev =>
      simp only [hfind]
      by_cases hc : ev.cancelled = true
      · rw [if_pos hc]
        exact pq_fresh now e N0 q L hq' hN0 he hids hfo
      · rw [if_neg hc]
        by_cases hd : ev.due_time ≤ now
        · rw [if_pos hd]
          have hm2 : cmds_mention e ev.body = false := hfo.2.1 id ev hfind
          have hfo2 : fresh_ok e (exec_cmds id ev.body L).1 :=
            exec_cmds_fresh ev.body L hm2 hide hfo
          have hids2 : ids_lt (exec_cmds id ev.body L).1 :=
            exec_cmds_ids_lt ev.body L hids
          have hni := exec_cmds_next_id id ev.body L
          by_cases hr : ev.recurring = true
          · simp only [if_pos hr]
            refine pq_fresh now e N0 q _ hq' (le_trans hN0 hni) he ?_
              (fresh_ok_timer_insert hfo2 hide)
            intro x hx
            obtain ⟨k, hk⟩ := timer_ids_mem hx
            rcases ti_mem_inv hk with h2 | h2
            · exact hids2 x (mem_timer_ids h2)
            · rw [h2.1]
              show id < (exec_cmds id ev.body L).1.next_id
              omega
          · simp only [if_neg hr]
            exact pq_fresh now e N0 q _ hq' (le_trans hN0 hni) he hids2 hfo2
        · rw [if_neg hd]
          refine pq_fresh now e N0 q _ hq' hN0 he ?_
            (fresh_ok_timer_insert hfo hide)
          intro x hx
          obtain ⟨k, hk⟩ := timer_ids_mem hx
          rcases ti_mem_inv hk with h2 | h2
          · exact hids x (mem_timer_ids h2)
          · rw [h2.1]
            exact hidlt

theorem sf_mem {s : List (Nat × event)} {id : Nat} {ev : event}
    (h : store_find s id = some ev) : (id, ev) ∈ s := by
  induction s with
  | nil => rw [store_find] at h; exact absurd h (by simp)
  | cons p rest ih =>
    rw [store_find] at h
    by_cases hp : p.1 = id
    · rw [if_pos hp] at h
      have hev : p.2 = ev := Option.some.inj h
      have hpe : p = (id, ev) := by
        obtain ⟨a, b⟩ := p
        simp only [Prod.mk.injEq]
        exact ⟨hp, hev⟩
      rw [← hpe]
      exact List.mem_cons_self p rest
    · rw [if_neg hp] at h
      exact List.mem_cons_of_mem _ (ih h)

theorem wf_unpack {L : event_loop} (h : wf L = true) :
    List.Pairwise (fun a b => a.1 < b.1) L.timers ∧ ids_lt L ∧
    (∀ p ∈ L.store, p.1 < L.next_id) ∧
    (∀ id ev, store_find L.store id = some ev →
      cmds_closed L.next_id ev.body = true) ∧
    L.counter < U32 := by
  rw [wf] at h
  simp only [Bool.and_eq_true] at h
  obtain ⟨⟨⟨h1, h2⟩, h3⟩, h4⟩ := h
  have hstore := List.all_eq_true.mp h3
  refine ⟨(sorted_iff _).mp h1, ?_, ?_, ?_, by simpa using h4⟩
  · intro x hx
    have := List.all_eq_true.mp h2 x hx
    simpa using this
  · intro p hp
    have := hstore p hp
    rw [Bool.and_eq_true] at this
    simpa using this.1
  · intro id ev hfind
    have hmem := sf_mem hfind
    have := hstore (id, ev) hmem
    rw [Bool.and_eq_true] at this
    exact this.2

theorem wf_no_mention {L : event_loop} {e : Nat} (h : wf L = true)
    (he : L.next_id ≤ e) : no_mention e L.store := by
  intro id ev hfind
  exact cmds_closed_not_mention L.next_id e he ev.body
    ((wf_unpack h).2.2.2.1 id ev hfind)

theorem process_fresh (L : event_loop) (now e : Nat)
    (hwf : wf L = true) (he : L.next_id ≤ e) :
    e ∉ (process L now).fired ∧
    fresh_ok e (process L now).loop ∧
    ids_lt (process L now).loop ∧
    L.next_id ≤ (process L now).loop.next_id := by
  obtain ⟨hpair, hids, hkeys, hclosed, hcnt⟩ := wf_unpack hwf
  have hq : ∀ x ∈ (due_split L.timers now).2, x < L.next_id := by
    intro x hx
    obtain ⟨k, l, hl, hxl, _⟩ := ds_queue_key L.timers now x hx
    exact hids x (mem_timer_ids ⟨l, hl, hxl⟩)
  have hM0 : fresh_ok e { timers := (due_split L.timers now).1,
                          store := L.store, counter := L.counter,
                          next_id := L.next_id } := by
    refine ⟨(sorted_iff _).mpr (ds_pairwise L.timers now hpair),
      show no_mention e L.store from wf_no_mention hwf he,
      Or.inl ⟨he, sf_none_of_lt ?_, ?_⟩⟩
    · intro p hp
      have := hkeys p hp
      omega
    · intro k hk
      have h2 := ds_rem_mem_inv hk
      have := hids e (mem_timer_ids h2)
      omega
  have hidsM0 : ids_lt { timers := (due_split L.timers now).1,
                         store := L.store, counter := L.counter,
                         next_id := L.next_id } := by
    intro x hx
    obtain ⟨k, hk⟩ := timer_ids_mem hx
    exact hids x (mem_timer_ids (ds_rem_mem_inv hk))
  have hres := pq_fresh now e L.next_id (due_split L.timers now).2
    { timers := (due_split L.timers now).1, store := L.store,
      counter := L.counter, next_id := L.next_id }
    hq (le_refl _) he hidsM0 hM0
  refine ⟨?_, hres.1, hres.2.1, hres.2.2⟩
  intro hfired
  have hfired2 : e ∈ (process_queue now (due_split L.timers now).2
      { timers := (due_split L.timers now).1, store := L.store,
        counter := L.counter, next_id := L.next_id }).fired := hfired
  have := pq_fired_sub now _ _ e hfired2
  have := hq e this
  omega

theorem process_preserve_sched (M : event_loop) (t e : Nat) (ev2 : event)
    (hpair : List.Pairwise (fun a b => a.1 < b.1) M.timers)
    (hids : ids_lt M) (hfo : fresh_ok e M)
    (hfind : store_find M.store e = some ev2) (ht : t < ev2.due_time) :
    e ∉ (process M t).fired ∧
    store_find (process M t).loop.store e = some ev2 ∧
    fresh_ok e (process M t).loop ∧
    ids_lt (process M t).loop ∧
    M.next_id ≤ (process M t).loop.next_id := by
  obtain ⟨hsort, hnm, hbr⟩ := hfo
  rcases hbr with h1 | h1
  · rw [h1.2.1] at hfind
    exact absurd hfind (by simp)
  obtain ⟨hlt, ev3, hfind2, hcanc, hmem, honly⟩ := h1
  have hev2 : ev2 = ev3 := by
    rw [hfind] at hfind2
    exact Option.some.inj hfind2
  subst hev2
  have heq : e ∉ (due_split M.timers t).2 := by
    intro hx
    obtain ⟨k, l, hl, hxl, hk⟩ := ds_queue_key M.timers t e hx
    have := honly k l hl hxl
    omega
  have hq : ∀ x ∈ (due_split M.timers t).2, x < M.next_id := by
    intro x hx
    obtain ⟨k, l, hl, hxl, _⟩ := ds_queue_key M.timers t x hx
    exact hids x (mem_timer_ids ⟨l, hl, hxl⟩)
  have hmemrem : mem_timer (due_split M.timers t).1 ev2.due_time e :=
    ds_mem_keep M.timers t ev2.due_time e hpair hmem ht
  have hrempair : List.Pairwise (fun a b => a.1 < b.1) (due_split M.timers t).1 :=
    ds_pairwise M.timers t hpair
  have hidsM0 : ids_lt { timers := (due_split M.timers t).1,
                         store := M.store, counter := M.counter,
                         next_id := M.next_id } := by
    intro x hx
    obtain ⟨k, hk⟩ := timer_ids_mem hx
    exact hids x (mem_timer_ids (ds_rem_mem_inv hk))
  have hres := pq_preserve_e t e (due_split M.timers t).2
    { timers := (due_split M.timers t).1, store := M.store,
      counter := M.counter, next_id := M.next_id }
    heq hq hlt hnm
  have hnextid : M.next_id ≤ (process M t).loop.next_id := by
    show M.next_id ≤ (process_queue t (due_split M.timers t).2
      { timers := (due_split M.timers t).1, store := M.store,
        counter := M.counter, next_id := M.next_id }).loop.next_id
    exact pq_next_id t (due_split M.timers t).2
      { timers := (due_split M.timers t).1, store := M.store,
        counter := M.counter, next_id := M.next_id }
  have hsf2 : store_find (process M t).loop.store e = some ev2 := by
    show store_find (process_queue t (due_split M.timers t).2
      { timers := (due_split M.timers t).1, store := M.store,
        counter := M.counter, next_id := M.next_id }).loop.store e = some ev2
    rw [hres.1]
    exact hfind2
  refine ⟨?_, hsf2, ⟨?_, hres.2.1, Or.inr ⟨by omega, ev2, hsf2, hcanc, ?_, ?_⟩⟩,
    hres.2.2.2.2.2 hidsM0, hnextid⟩
  · intro hfired
    have hfired2 : e ∈ (process_queue t (due_split M.timers t).2
        { timers := (due_split M.timers t).1, store := M.store,
          counter := M.counter, next_id := M.next_id }).fired := hfired
    exact heq (pq_fired_sub t _ _ e hfired2)
  · exact (sorted_iff _).mpr (hres.2.2.2.2.1 hrempair)
  · exact hres.2.2.1 ev2.due_time hmemrem
  · intro k' l' hmem' he'
    have h2 := hres.2.2.2.1 k' ⟨l', hmem', he'⟩
    obtain ⟨l'', hl'', he''⟩ := ds_rem_mem_inv h2
    exact honly k' l'' hl'' he''

end fugax









namespace fugax

theorem process_fires_scheduled (M : event_loop) (tnow e k : Nat) (ev : event)
    (hpair : List.Pairwise (fun a b => a.1 < b.1) M.timers)
    (hids : ids_lt M) (hnm : no_mention e M.store)
    (hfind : store_find M.store e = some ev) (hc : ev.cancelled = false)
    (hmem : mem_timer M.timers k e) (hk : k ≤ tnow) (hdue : ev.due_time ≤ tnow)
    (he : e < M.next_id) :
    e ∈ (process M tnow).fired ∧
    (ev.recurring = true →
      mem_timer (process M tnow).loop.timers ((tnow + ev.interval) % U32) e) ∧
    (hcmd.cancel_self ∈ ev.body →
      ∃ ev', store_find (process M tnow).loop.store e = some ev' ∧
        ev'.cancelled = true) := by
  have hq : e ∈ (due_split M.timers tnow).2 :=
    ds_mem_queue M.timers tnow k e hpair hmem hk
  obtain ⟨q1, q2, heq, hnot⟩ := first_split hq
  have hres := pq_fires tnow e q1 q2
    { timers := (due_split M.timers tnow).1, store := M.store,
      counter := M.counter, next_id := M.next_id } ev hfind hc hdue hnot he hnm
  refine ⟨?_, ?_, ?_⟩
  · show e ∈ (process_queue tnow (due_split M.timers tnow).2
      { timers := (due_split M.timers tnow).1, store := M.store,
        counter := M.counter, next_id := M.next_id }).fired
    rw [heq]
    exact hres.1
  · intro hr
    show mem_timer (process_queue tnow (due_split M.timers tnow).2
      { timers := (due_split M.timers tnow).1, store := M.store,
        counter := M.counter, next_id := M.next_id }).loop.timers
      ((tnow + ev.interval) % U32) e
    rw [heq]
    exact hres.2.1 hr
  · intro hcs
    show ∃ ev', store_find (process_queue tnow (due_split M.timers tnow).2
      { timers := (due_split M.timers tnow).1, store := M.store,
        counter := M.counter, next_id := M.next_id }).loop.store e =
      some ev' ∧ ev'.cancelled = true
    rw [heq]
    exact hres.2.2 hcs

theorem preserve_many (e : Nat) (ev : event) :
    ∀ (ts : List Nat) (M : event_loop),
      fresh_ok e M → ids_lt M →
      store_find M.store e = some ev →
      (∀ t ∈ ts, t < ev.due_time) →
      fresh_ok e (process_many M ts) ∧ ids_lt (process_many M ts) ∧
      store_find (process_many M ts).store e = some ev
  | [], M, hfo, hids, hfind, _ => ⟨hfo, hids, hfind⟩
  | t :: ts, M, hfo, hids, hfind, hts => by
    have hpair := (sorted_iff _).mp hfo.1
    have hres := process_preserve_sched M t e ev hpair hids hfo hfind
      (hts t (List.mem_cons_self t ts))
    show fresh_ok e (process_many (process M t).loop ts) ∧
      ids_lt (process_many (process M t).loop ts) ∧
      store_find (process_many (process M t).loop ts).store e = some ev
    exact preserve_many e ev ts (process M t).loop hres.2.2.1 hres.2.2.2.1
      hres.2.1 (fun t' ht' => hts t' (List.mem_cons_of_mem _ ht'))

end fugax

namespace fugax

/-- C6: an event allocated by a firing handler during `process(now)` — its
identifier `e` is at or above the loop's pre-tick `next_id` — never appears
among the events fired by that same `process(now)` call; if it was scheduled
(it is stored with event record `ev` after the tick), then it also does not
fire on any later tick strictly earlier than its slot, and the first
`process(now')` with `now'` at or after its slot does fire it. -/
theorem C6_scheduled_next_tick (L : event_loop) (now e : Nat)
    (hwf : wf L = true) (he : L.next_id ≤ e) :
    e ∉ (process L now).fired ∧
    ∀ ev, store_find (process L now).loop.store e = some ev →
      ∀ ts, (∀ t ∈ ts, t < ev.due_time) →
        (∀ ts1 t1 ts2, ts = ts1 ++ t1 :: ts2 →
          e ∉ (process (process_many (process L now).loop ts1) t1).fired) ∧
        ∀ now', ev.due_time ≤ now' →
          e ∈ (process (process_many (process L now).loop ts) now').fired := by
  obtain ⟨hnf, hfo, hids, hni⟩ := process_fresh L now e hwf he
  refine ⟨hnf, ?_⟩
  intro ev hfind ts hts
  constructor
  · intro ts1 t1 ts2 htseq
    have hts1 : ∀ t ∈ ts1, t < ev.due_time := fun t ht =>
      hts t (htseq ▸ List.mem_append.mpr (Or.inl ht))
    have ht1 : t1 < ev.due_time :=
      hts t1 (htseq ▸ List.mem_append.mpr (Or.inr (List.mem_cons_self t1 ts2)))
    have hinv := preserve_many e ev ts1 (process L now).loop hfo hids hfind hts1
    have hpair := (sorted_iff _).mp hinv.1.1
    exact (process_preserve_sched (process_many (process L now).loop ts1) t1 e
      ev hpair hinv.2.1 hinv.1 hinv.2.2 ht1).1
  · intro now' hnow'
    have hinv := preserve_many e ev ts (process L now).loop hfo hids hfind hts
    obtain ⟨hsort, hnm, hbr⟩ := hinv.1
    rcases hbr with h1 | h1
    · exact absurd hinv.2.2 (by rw [h1.2.1]; simp)
    · obtain ⟨hlt, ev2, hfind2, hcanc, hmem, honly⟩ := h1
      have hev : ev2 = ev := Option.some.inj (hfind2.symm.trans hinv.2.2)
      subst hev
      have hpair := (sorted_iff _).mp hsort
      exact (process_fires_scheduled (process_many (process L now).loop ts)
        now' e ev2.due_time ev2 hpair hinv.2.1 hnm hfind2 hcanc hmem hnow'
        hnow' hlt).1

theorem C6_scheduled_next_tick_witness :
    wf sched_demo = true ∧ sched_demo.next_id ≤ 1 ∧
    (1 ∉ (process sched_demo 0).fired ∧
      ∀ ev, store_find (process sched_demo 0).loop.store 1 = some ev →
        ∀ ts, (∀ t ∈ ts, t < ev.due_time) →
          (∀ ts1 t1 ts2, ts = ts1 ++ t1 :: ts2 →
            1 ∉ (process (process_many (process sched_demo 0).loop ts1)
              t1).fired) ∧
          ∀ now', ev.due_time ≤ now' →
            1 ∈ (process (process_many (process sched_demo 0).loop ts)
              now').fired) :=
  ⟨by decide, by decide,
    C6_scheduled_next_tick sched_demo 0 1 (by decide) (by decide)⟩

end fugax

namespace fugax

/-- C8 counterexample: in `self_cancel_demo` the recurring event `0` cancels
itself through the event reference while firing inside `process(0)`, yet the
loop still reinserts it into the timer map at slot `0 + 5` (its cancelled
flag now set) — the claim says a cancelled recurring event is not
reinserted. -/
theorem C8_counterexample :
    0 ∈ (process self_cancel_demo 0).fired ∧
    (process self_cancel_demo 0).loop.timers = [(0, []), (5, [0])] ∧
    (process self_cancel_demo 0).loop.store.map
      (fun p => (p.1, p.2.cancelled)) = [(0, true)] :=
  ⟨by decide, by decide, by decide⟩

/-- C8 (amended): a recurring event that cancels itself via the event
reference while firing inside `process(now)` still fires on that tick and IS
reinserted into the timer map at slot `(now + interval) mod 2^32`, with its
cancelled flag set; the reinserted entry is skipped and dropped by the next
collecting pass, so the event never fires on any later tick. -/
theorem C8_cancelled_recurring_reinserted (M : event_loop) (now e k : Nat)
    (ev : event)
    (hpair : List.Pairwise (fun a b => a.1 < b.1) M.timers)
    (hids : ids_lt M) (hnm : no_mention e M.store)
    (hfind : store_find M.store e = some ev) (hc : ev.cancelled = false)
    (hmem : mem_timer M.timers k e) (hk : k ≤ now) (hdue : ev.due_time ≤ now)
    (he : e < M.next_id) (hr : ev.recurring = true)
    (hcs : hcmd.cancel_self ∈ ev.body) :
    e ∈ (process M now).fired ∧
    mem_timer (process M now).loop.timers ((now + ev.interval) % U32) e ∧
    (∃ ev', store_find (process M now).loop.store e = some ev' ∧
      ev'.cancelled = true) ∧
    ∀ ts now',
      e ∉ (process (process_many (process M now).loop ts) now').fired := by
  have hres := process_fires_scheduled M now e k ev hpair hids hnm hfind hc
    hmem hk hdue he
  obtain ⟨ev', hfind', hc'⟩ := hres.2.2 hcs
  refine ⟨hres.1, hres.2.1 hr, ⟨ev', hfind', hc'⟩, ?_⟩
  intro ts now'
  exact never_fires_again e ts (process M now).loop ev' hfind' hc' now'

theorem C8_cancelled_recurring_reinserted_witness :
    store_find self_cancel_demo.store 0 =
      some { interval := 5, body := [hcmd.cancel_self], recurring := true,
             due_time := 0, cancelled := false } ∧
    (0 ∈ (process self_cancel_demo 0).fired ∧
      mem_timer (process self_cancel_demo 0).loop.timers ((0 + 5) % U32) 0 ∧
      (∃ ev', store_find (process self_cancel_demo 0).loop.store 0 =
        some ev' ∧ ev'.cancelled = true) ∧
      ∀ ts now',
        0 ∉ (process (process_many (process self_cancel_demo 0).loop ts)
          now').fired) :=
  ⟨rfl,
    C8_cancelled_recurring_reinserted self_cancel_demo 0 0 0
      { interval := 5, body := [hcmd.cancel_self], recurring := true,
        due_time := 0, cancelled := false }
      (by decide)
      (by
        intro x hx
        have hx0 : x = 0 := by simpa [self_cancel_demo, timer_ids] using hx
        subst hx0
        decide)
      (by
        intro id ev2 h
        simp only [self_cancel_demo, store_find] at h
        split at h
        · cases Option.some.inj h
          rfl
        · exact absurd h (by simp [store_find]))
      rfl rfl ⟨[0], by decide, by decide⟩ (by decide) (by decide) (by decide)
      rfl (List.mem_cons_self hcmd.cancel_self [])⟩

end fugax

namespace fugax

/-- C10: for the `delayed` and `recurring_delayed` policies the scheduled
event's slot and due time are `(counter + delay) mod 2^32`; in particular,
when `counter + delay` overflows the 32-bit counter type the event is stored
at a slot numerically not greater than the current counter and fires on the
very next `process(now)` whose `now` is at or after that wrapped slot. -/
theorem C10_slot_wraparound (L : event_loop) (delay : Nat)
    (p : schedule_policy) (body : List hcmd)
    (hwf : wf L = true) (hdelay : delay < U32)
    (hp : p = schedule_policy.delayed ∨ p = schedule_policy.recurring_delayed)
    (hbody : cmds_closed L.next_id body = true) :
    ∃ ev, store_find (schedule_core L delay p body).1.store
        (schedule_core L delay p body).2 = some ev ∧
      ev.due_time = (L.counter + delay) % U32 ∧
      mem_timer (schedule_core L delay p body).1.timers
        ((L.counter + delay) % U32) (schedule_core L delay p body).2 ∧
      (U32 ≤ L.counter + delay →
        ev.due_time ≤ L.counter ∧
        ∀ now, (L.counter + delay) % U32 ≤ now →
          (schedule_core L delay p body).2 ∈
            (process (schedule_core L delay p body).1 now).fired) := by
  obtain ⟨hpair, hids, hkeys, hclosed, hcnt⟩ := wf_unpack hwf
  have hnone : store_find L.store L.next_id = none :=
    sf_none_of_lt hkeys
  have hwrap : U32 ≤ L.counter + delay →
      (L.counter + delay) % U32 ≤ L.counter := by
    intro hov
    have h1 : (L.counter + delay) % U32 = (L.counter + delay - U32) % U32 :=
      Nat.mod_eq_sub_mod hov
    have h2 : L.counter + delay - U32 < U32 := by omega
    rw [h1, Nat.mod_eq_of_lt h2]
    omega
  rcases hp with hp | hp
  · subst hp
    refine ⟨{ interval := delay, body := body, recurring := false,
              due_time := (L.counter + delay) % U32, cancelled := false },
      sf_append_new _ hnone, rfl, ti_mem_new _ _ _, ?_⟩
    intro hov
    refine ⟨hwrap hov, ?_⟩
    intro now hnow
    have hpair2 : List.Pairwise (fun a b => a.1 < b.1)
        (schedule_core L delay schedule_policy.delayed body).1.timers :=
      ti_pairwise L.timers ((L.counter + delay) % U32) L.next_id hpair
    have hids2 : ids_lt (schedule_core L delay schedule_policy.delayed body).1 := by
      intro x hx
      obtain ⟨k, hk⟩ := timer_ids_mem hx
      rcases ti_mem_inv hk with h1 | h1
      · have := hids x (mem_timer_ids h1)
        show x < L.next_id + 1
        omega
      · rw [h1.1]
        show L.next_id < L.next_id + 1
        omega
    have hnm2 : no_mention L.next_id
        (schedule_core L delay schedule_policy.delayed body).1.store := by
      intro id ev2 hfind2
      rcases sf_append_cases hfind2 with h1 | h1
      · exact cmds_closed_not_mention L.next_id L.next_id (le_refl _) ev2.body
          (hclosed id ev2 h1)
      · rw [h1.2.2]
        exact cmds_closed_not_mention L.next_id L.next_id (le_refl _) body hbody
    exact (process_fires_scheduled
      (schedule_core L delay schedule_policy.delayed body).1 now L.next_id
      ((L.counter + delay) % U32)
      { interval := delay, body := body, recurring := false,
        due_time := (L.counter + delay) % U32, cancelled := false }
      hpair2 hids2 hnm2 (sf_append_new _ hnone) rfl (ti_mem_new _ _ _) hnow
      hnow (by show L.next_id < L.next_id + 1; omega)).1
  · subst hp
    refine ⟨{ interval := delay, body := body, recurring := true,
              due_time := (L.counter + delay) % U32, cancelled := false },
      sf_append_new _ hnone, rfl, ti_mem_new _ _ _, ?_⟩
    intro hov
    refine ⟨hwrap hov, ?_⟩
    intro now hnow
    have hpair2 : List.Pairwise (fun a b => a.1 < b.1)
        (schedule_core L delay schedule_policy.recurring_delayed body).1.timers :=
      ti_pairwise L.timers ((L.counter + delay) % U32) L.next_id hpair
    have hids2 : ids_lt
        (schedule_core L delay schedule_policy.recurring_delayed body).1 := by
      intro x hx
      obtain ⟨k, hk⟩ := timer_ids_mem hx
      rcases ti_mem_inv hk with h1 | h1
      · have := hids x (mem_timer_ids h1)
        show x < L.next_id + 1
        omega
      · rw [h1.1]
        show L.next_id < L.next_id + 1
        omega
    have hnm2 : no_mention L.next_id
        (schedule_core L delay schedule_policy.recurring_delayed body).1.store := by
      intro id ev2 hfind2
      rcases sf_append_cases hfind2 with h1 | h1
      · exact cmds_closed_not_mention L.next_id L.next_id (le_refl _) ev2.body
          (hclosed id ev2 h1)
      · rw [h1.2.2]
        exact cmds_closed_not_mention L.next_id L.next_id (le_refl _) body hbody
    exact (process_fires_scheduled
      (schedule_core L delay schedule_policy.recurring_delayed body).1 now
      L.next_id ((L.counter + delay) % U32)
      { interval := delay, body := body, recurring := true,
        due_time := (L.counter + delay) % U32, cancelled := false }
      hpair2 hids2 hnm2 (sf_append_new _ hnone) rfl (ti_mem_new _ _ _) hnow
      hnow (by show L.next_id < L.next_id + 1; omega)).1

end fugax

namespace fugax

theorem C10_slot_wraparound_witness :
    wf wrap_demo = true ∧ (100 : Nat) < U32 ∧
    cmds_closed wrap_demo.next_id [] = true ∧
    (∃ ev, store_find
        (schedule_core wrap_demo 100 schedule_policy.delayed []).1.store
        (schedule_core wrap_demo 100 schedule_policy.delayed []).2 = some ev ∧
      ev.due_time = (wrap_demo.counter + 100) % U32 ∧
      mem_timer (schedule_core wrap_demo 100 schedule_policy.delayed []).1.timers
        ((wrap_demo.counter + 100) % U32)
        (schedule_core wrap_demo 100 schedule_policy.delayed []).2 ∧
      (U32 ≤ wrap_demo.counter + 100 →
        ev.due_time ≤ wrap_demo.counter ∧
        ∀ now, (wrap_demo.counter + 100) % U32 ≤ now →
          (schedule_core wrap_demo 100 schedule_policy.delayed []).2 ∈
            (process (schedule_core wrap_demo 100 schedule_policy.delayed []).1
              now).fired)) :=
  ⟨by decide, by decide, rfl,
    C10_slot_wraparound wrap_demo 100 schedule_policy.delayed [] (by decide)
      (by decide) (Or.inl rfl) rfl⟩

end fugax

namespace fugax

/-- C9 counterexample: debounce with delay 100, invoked at time 0 with
argument 1 and again at time 99 with argument 2 (strictly within the delay);
after `process(199)` the functor is invoked with the first invocation's
argument 1, not the most recent argument 2: `reschedule` never re-captures
the arguments. -/
theorem C9_counterexample :
    (burst_run 100 [(0, 1), (99, 2)] empty_loop none []).2.2 = [] ∧
    (process (burst_run 100 [(0, 1), (99, 2)] empty_loop none []).1 199).calls
      = [1] ∧
    ([1] : List Nat) ≠ [2] :=
  ⟨by decide, by decide, by decide⟩

theorem dstate_tail (delay a₁ tprev t a key : Nat) (L : event_loop)
    (T : List (Nat × List Nat))
    (hstore : L.store =
      [(0, { interval := delay, body := [hcmd.invoke a₁],
             recurring := false, due_time := tprev + delay,
             cancelled := false })])
    (hnid : L.next_id = 1)
    (hP : process L t =
      ⟨{ timers := T, store := L.store, counter := t,
         next_id := L.next_id }, [], []⟩)
    (hTs : T = [(key, [0])] ∨ ∃ j, j < key ∧ T = [(j, []), (key, [0])])
    (hkey : key ≤ t + delay) (hb : t + delay < U32) :
    (process L t).calls = [] ∧
    (debounce_call delay (process L t).loop (some 0) a).2 = some 0 ∧
    dstate delay a₁ t (debounce_call delay (process L t).loop (some 0) a).1 := by
  rcases hTs with h | ⟨j, hj, h⟩
  · subst h
    refine ⟨by rw [hP], ?_, ?_⟩
    · rw [hP]
      rfl
    · rw [hP]
      refine ⟨key, Or.inl rfl, by omega, ?_, rfl, hnid⟩
      show store_modify L.store 0
        (fun ev => { ev with due_time := (t + delay) % U32 }) = _
      rw [hstore]
      simp only [Nat.mod_eq_of_lt hb]
      rfl
  · subst h
    refine ⟨by rw [hP], ?_, ?_⟩
    · rw [hP]
      rfl
    · rw [hP]
      refine ⟨key, Or.inr ⟨j, hj, rfl⟩, by omega, ?_, rfl, hnid⟩
      show store_modify L.store 0
        (fun ev => { ev with due_time := (t + delay) % U32 }) = _
      rw [hstore]
      simp only [Nat.mod_eq_of_lt hb]
      rfl

end fugax

namespace fugax

theorem pq_one_reloc (t id : Nat) (L : event_loop) (ev : event)
    (hfind : store_find L.store id = some ev) (hc : ev.cancelled = false)
    (hd : ¬ ev.due_time ≤ t) :
    process_queue t [id] L =
      ⟨{ L with timers := timer_insert L.timers ev.due_time id }, [], []⟩ := by
  rw [process_queue]
  simp only [hfind]
  rw [if_neg (by rw [hc]; simp), if_neg hd]
  rfl

theorem pq_one_fire (t id : Nat) (L : event_loop) (ev : event)
    (hfind : store_find L.store id = some ev) (hc : ev.cancelled = false)
    (hd : ev.due_time ≤ t) (hr : ev.recurring = false) :
    process_queue t [id] L =
      ⟨(exec_cmds id ev.body L).1, [id], (exec_cmds id ev.body L).2⟩ := by
  rw [process_queue]
  simp only [hfind]
  rw [if_neg (by rw [hc]; simp), if_pos hd]
  rw [if_neg (by rw [hr]; simp)]
  show (⟨(exec_cmds id ev.body L).1, [id],
    (exec_cmds id ev.body L).2 ++ []⟩ : tick_result) = _
  rw [List.append_nil]

end fugax

namespace fugax

theorem dstate_step (delay a₁ tprev t a : Nat) (L : event_loop)
    (hs : dstate delay a₁ tprev L) (ht1 : tprev ≤ t) (ht2 : t < tprev + delay)
    (hb : t + delay < U32) :
    (process L t).calls = [] ∧
    (debounce_call delay (process L t).loop (some 0) a).2 = some 0 ∧
    dstate delay a₁ t (debounce_call delay (process L t).loop (some 0) a).1 := by
  obtain ⟨key, hT, hkey, hstore, hcnt, hnid⟩ := hs
  have hfind : store_find L.store 0 =
      some { interval := delay, body := [hcmd.invoke a₁], recurring := false,
             due_time := tprev + delay, cancelled := false } := by
    rw [hstore]
    rfl
  have hnd : ¬ ((tprev : Nat) + delay ≤ t) := by omega
  rcases hT with hT | ⟨j, hjk, hT⟩
  · by_cases hkt : t < key
    · have hsplit : due_split L.timers t = ([(key, [0])], []) := by
        rw [hT]
        simp [due_split, hkt]
      have hP : process L t =
          ⟨{ timers := [(key, [0])], store := L.store, counter := t,
             next_id := L.next_id }, [], []⟩ := by
        simp only [process, hsplit]
        rfl
      exact dstate_tail delay a₁ tprev t a key L _ hstore hnid hP
        (Or.inl rfl) (by omega) hb
    · by_cases hket : key = t
      · have hsplit : due_split L.timers t = ([(key, [])], [0]) := by
          rw [hT]
          simp [due_split, hkt, hket]
        have h1 : process_queue t [0] { L with timers := [(key, [])] } =
            ⟨{ timers := timer_insert [(key, [])] (tprev + delay) 0,
               store := L.store, counter := L.counter,
               next_id := L.next_id }, [], []⟩ :=
          pq_one_reloc t 0 { L with timers := [(key, [])] } _ hfind rfl hnd
        have hti : timer_insert [(key, [])] (tprev + delay) 0 =
            [(key, []), (tprev + delay, [0])] := by
          simp [timer_insert, show ¬ (tprev + delay < key) from by omega,
            show ¬ (tprev + delay = key) from by omega]
        have hP : process L t =
            ⟨{ timers := [(key, []), (tprev + delay, [0])], store := L.store,
               counter := t, next_id := L.next_id }, [], []⟩ := by
          simp only [process, hsplit, h1, hti]
        exact dstate_tail delay a₁ tprev t a (tprev + delay) L _ hstore hnid hP
          (Or.inr ⟨key, by omega, rfl⟩) (by omega) hb
      · have hsplit : due_split L.timers t = ([], [0]) := by
          rw [hT]
          simp [due_split, hkt, hket]
        have h1 : process_queue t [0] { L with timers := ([] : List (Nat × List Nat)) } =
            ⟨{ timers := timer_insert [] (tprev + delay) 0,
               store := L.store, counter := L.counter,
               next_id := L.next_id }, [], []⟩ :=
          pq_one_reloc t 0 { L with timers := ([] : List (Nat × List Nat)) } _ hfind rfl hnd
        have hP : process L t =
            ⟨{ timers := [(tprev + delay, [0])], store := L.store,
               counter := t, next_id := L.next_id }, [], []⟩ := by
          simp only [process, hsplit, h1]
          rfl
        exact dstate_tail delay a₁ tprev t a (tprev + delay) L _ hstore hnid hP
          (Or.inl rfl) (by omega) hb
  · by_cases hjt : t < j
    · have hsplit : due_split L.timers t = ([(j, []), (key, [0])], []) := by
        rw [hT]
        simp [due_split, hjt]
      have hP : process L t =
          ⟨{ timers := [(j, []), (key, [0])], store := L.store, counter := t,
             next_id := L.next_id }, [], []⟩ := by
        simp only [process, hsplit]
        rfl
      exact dstate_tail delay a₁ tprev t a key L _ hstore hnid hP
        (Or.inr ⟨j, hjk, rfl⟩) (by omega) hb
    · by_cases hkt : t < key
      · by_cases hjt2 : j = t
        · have hsplit : due_split L.timers t = ([(j, []), (key, [0])], []) := by
            rw [hT]
            simp [due_split, hjt, hkt, hjt2]
          have hP : process L t =
              ⟨{ timers := [(j, []), (key, [0])], store := L.store,
                 counter := t, next_id := L.next_id }, [], []⟩ := by
            simp only [process, hsplit]
            rfl
          exact dstate_tail delay a₁ tprev t a key L _ hstore hnid hP
            (Or.inr ⟨j, hjk, rfl⟩) (by omega) hb
        · have hsplit : due_split L.timers t = ([(key, [0])], []) := by
            rw [hT]
            simp [due_split, hjt, hkt, hjt2]
          have hP : process L t =
              ⟨{ timers := [(key, [0])], store := L.store, counter := t,
                 next_id := L.next_id }, [], []⟩ := by
            simp only [process, hsplit]
            rfl
          exact dstate_tail delay a₁ tprev t a key L _ hstore hnid hP
            (Or.inl rfl) (by omega) hb
      · by_cases hket : key = t
        · have hsplit : due_split L.timers t = ([(key, [])], [0]) := by
            rw [hT]
            simp [due_split, hjt, hkt, hket, show j ≠ t from by omega]
          have h1 : process_queue t [0] { L with timers := [(key, [])] } =
              ⟨{ timers := timer_insert [(key, [])] (tprev + delay) 0,
                 store := L.store, counter := L.counter,
                 next_id := L.next_id }, [], []⟩ :=
            pq_one_reloc t 0 { L with timers := [(key, [])] } _ hfind rfl hnd
          have hti : timer_insert [(key, [])] (tprev + delay) 0 =
              [(key, []), (tprev + delay, [0])] := by
            simp [timer_insert, show ¬ (tprev + delay < key) from by omega,
              show ¬ (tprev + delay = key) from by omega]
          have hP : process L t =
              ⟨{ timers := [(key, []), (tprev + delay, [0])],
                 store := L.store, counter := t,
                 next_id := L.next_id }, [], []⟩ := by
            simp only [process, hsplit, h1, hti]
          exact dstate_tail delay a₁ tprev t a (tprev + delay) L _ hstore hnid
            hP (Or.inr ⟨key, by omega, rfl⟩) (by omega) hb
        · have hsplit : due_split L.timers t = ([], [0]) := by
            rw [hT]
            simp [due_split, hjt, hkt, hket, show j ≠ t from by omega]
          have h1 : process_queue t [0] { L with timers := ([] : List (Nat × List Nat)) } =
              ⟨{ timers := timer_insert [] (tprev + delay) 0,
                 store := L.store, counter := L.counter,
                 next_id := L.next_id }, [], []⟩ :=
            pq_one_reloc t 0 { L with timers := ([] : List (Nat × List Nat)) } _ hfind rfl hnd
          have hP : process L t =
              ⟨{ timers := [(tprev + delay, [0])], store := L.store,
                 counter := t, next_id := L.next_id }, [], []⟩ := by
            simp only [process, hsplit, h1]
            rfl
          exact dstate_tail delay a₁ tprev t a (tprev + delay) L _ hstore hnid
            hP (Or.inl rfl) (by omega) hb

end fugax

namespace fugax

theorem dstate_fires (delay a₁ tprev now' : Nat) (L : event_loop)
    (hs : dstate delay a₁ tprev L) (hnow : tprev + delay ≤ now') :
    (process L now').calls = [a₁] ∧ (process L now').fired = [0] := by
  obtain ⟨key, hT, hkey, hstore, hcnt, hnid⟩ := hs
  have hfind : store_find L.store 0 =
      some { interval := delay, body := [hcmd.invoke a₁], recurring := false,
             due_time := tprev + delay, cancelled := false } := by
    rw [hstore]
    rfl
  have hmain : ∀ R : List (Nat × List Nat),
      due_split L.timers now' = (R, [0]) →
      (process L now').calls = [a₁] ∧ (process L now').fired = [0] := by
    intro R hsplit
    have h1 : process_queue now' [0] { L with timers := R } =
        ⟨{ L with timers := R }, [0], [a₁]⟩ :=
      pq_one_fire now' 0 { L with timers := R } _ hfind rfl hnow rfl
    constructor
    · simp only [process, hsplit, h1]
    · simp only [process, hsplit, h1]
  rcases hT with hT | ⟨j, hjk, hT⟩
  · by_cases hknow : key = now'
    · exact hmain [(key, [])] (by
        rw [hT]
        simp [due_split, show ¬ (now' < key) from by omega, hknow])
    · exact hmain [] (by
        rw [hT]
        simp [due_split, show ¬ (now' < key) from by omega, hknow])
  · by_cases hknow : key = now'
    · exact hmain [(key, [])] (by
        rw [hT]
        simp [due_split, show ¬ (now' < j) from by omega,
          show j ≠ now' from by omega, show ¬ (now' < key) from by omega,
          hknow])
    · exact hmain [] (by
        rw [hT]
        simp [due_split, show ¬ (now' < j) from by omega,
          show j ≠ now' from by omega, show ¬ (now' < key) from by omega,
          hknow])

theorem burst_inv (delay a₁ : Nat) :
    ∀ (bs : List (Nat × Nat)) (tprev : Nat) (L : event_loop),
      burst_chain delay tprev bs = true →
      (∀ p ∈ bs, p.1 + delay < U32) →
      dstate delay a₁ tprev L →
      dstate delay a₁ (last_time tprev bs)
        (burst_run delay bs L (some 0) []).1 ∧
      (burst_run delay bs L (some 0) []).2.1 = some 0 ∧
      (burst_run delay bs L (some 0) []).2.2 = []
  | [], tprev, L, _, _, hs => ⟨hs, rfl, rfl⟩
  | (t, a) :: bs, tprev, L, hb, hbound, hs => by
    rw [burst_chain] at hb
    simp only [Bool.and_eq_true, decide_eq_true_eq] at hb
    obtain ⟨⟨ht1, ht2⟩, hb'⟩ := hb
    have hstep := dstate_step delay a₁ tprev t a L hs ht1 ht2
      (hbound (t, a) (List.mem_cons_self _ _))
    simp only [burst_run, hstep.1, hstep.2.1, List.append_nil]
    exact burst_inv delay a₁ bs t
      (debounce_call delay (process L t).loop (some 0) a).1 hb'
      (fun p hp => hbound p (List.mem_cons_of_mem _ hp)) hstep.2.2

end fugax

namespace fugax

/-- C9 (amended): for `d = debounce(delay, f)` invoked in a burst whose
invocations each occur strictly within `delay` units of the previous one
(with `process` driven before each invocation), `f` is never called during
the burst; once `delay` units elapse after the final invocation with no
further call to `d`, the next `process` calls `f` exactly once — but with
the arguments captured at the FIRST invocation of the burst, not the most
recent ones: rescheduling the pending event never re-captures arguments. -/
theorem C9_debounce_first_args (delay t₁ a₁ now' : Nat) (bs : List (Nat × Nat))
    (hchain : burst_chain delay t₁ bs = true)
    (hb1 : t₁ + delay < U32) (hbound : ∀ p ∈ bs, p.1 + delay < U32)
    (hnow : last_time t₁ bs + delay ≤ now') :
    (burst_run delay ((t₁, a₁) :: bs) empty_loop none []).2.2 = [] ∧
    (process (burst_run delay ((t₁, a₁) :: bs) empty_loop none []).1
      now').calls = [a₁] ∧
    (process (burst_run delay ((t₁, a₁) :: bs) empty_loop none []).1
      now').fired = [0] := by
  have hmod : (t₁ + delay) % U32 = t₁ + delay := Nat.mod_eq_of_lt hb1
  have hD0 : debounce_call delay (process empty_loop t₁).loop none a₁ =
      ({ timers := [((t₁ + delay) % U32, [0])],
         store := [(0, { interval := delay, body := [hcmd.invoke a₁],
                         recurring := false,
                         due_time := (t₁ + delay) % U32,
                         cancelled := false })],
         counter := t₁, next_id := 1 }, some 0) := rfl
  have hds0 : dstate delay a₁ t₁
      ({ timers := [((t₁ + delay) % U32, [0])],
         store := [(0, { interval := delay, body := [hcmd.invoke a₁],
                         recurring := false,
                         due_time := (t₁ + delay) % U32,
                         cancelled := false })],
         counter := t₁, next_id := 1 } : event_loop) := by
    refine ⟨t₁ + delay, Or.inl (by rw [hmod]), by omega, by rw [hmod], rfl,
      rfl⟩
  have hstep0 : burst_run delay ((t₁, a₁) :: bs) empty_loop none [] =
      burst_run delay bs
        ({ timers := [((t₁ + delay) % U32, [0])],
           store := [(0, { interval := delay, body := [hcmd.invoke a₁],
                           recurring := false,
                           due_time := (t₁ + delay) % U32,
                           cancelled := false })],
           counter := t₁, next_id := 1 } : event_loop) (some 0) [] := by
    simp only [burst_run]
    rw [hD0]
    rfl
  have hrun := burst_inv delay a₁ bs t₁
    ({ timers := [((t₁ + delay) % U32, [0])],
       store := [(0, { interval := delay, body := [hcmd.invoke a₁],
                       recurring := false,
                       due_time := (t₁ + delay) % U32,
                       cancelled := false })],
       counter := t₁, next_id := 1 } : event_loop) hchain hbound hds0
  have hfin := dstate_fires delay a₁ (last_time t₁ bs) now' _ hrun.1 hnow
  rw [hstep0]
  exact ⟨hrun.2.2, hfin.1, hfin.2⟩

end fugax

namespace fugax

theorem C9_debounce_first_args_witness :
    burst_chain 100 0 [(99, 2)] = true ∧
    (100 : Nat) < U32 ∧
    (∀ p ∈ [((99 : Nat), (2 : Nat))], p.1 + 100 < U32) ∧
    last_time 0 [(99, 2)] + 100 ≤ 199 ∧
    ((burst_run 100 [(0, 1), (99, 2)] empty_loop none []).2.2 = [] ∧
      (process (burst_run 100 [(0, 1), (99, 2)] empty_loop none []).1
        199).calls = [1] ∧
      (process (burst_run 100 [(0, 1), (99, 2)] empty_loop none []).1
        199).fired = [0]) :=
  ⟨by decide, by decide, by decide, by decide,
    C9_debounce_first_args 100 0 1 199 [(99, 2)] (by decide) (by decide)
      (by decide) (by decide)⟩

end fugax
